import Mathlib

/-!
Verification of the tree reconciliation engine of `gdrive-sync` (`src/sync.py`).

The development shallowly embeds the core of `sync.py`:

* the remote object model (`RemoteObj`, `RemoteParentFolder`, `LocalInfo`, `TreeNode`,
  `Stats`) — `Timestamp` models the real-valued POSIX timestamps produced by
  `datetime.timestamp()` / `st_mtime` exactly, as a whole-seconds part plus a
  sub-second remainder, ordered lexicographically;
* the tree builder `get_tree` (the loop over all remote objects, with the
  `assert len(obj.parents) == 1` modelled as a failure, i.e. `none`);
* the name resolver `TreeNode.make_local_file_info` / `TreeNode._sanitize_file_name`
  (the unbounded `while` loop is run with provably sufficient fuel; Python's stable
  `list.sort` is modelled by the stable `List.insertionSort`, and Python's
  code-point string comparison by a char-level lexicographic comparison);
* the reconciler `Syncer.sync_folder` / `sync_file` / `check_file_synced` /
  `download_file` / `archive_file` / `delete_removed_files`, over an explicit model
  of the local filesystem (`FSNode`, directories as association lists of named
  entries).  Folder titles are treated as atomic path segment names, except that an
  empty title is modelled faithfully to `pathlib` path joining: joining an empty
  segment leaves the directory unchanged, so a folder whose node carries an empty
  title operates directly in its parent's directory.  The opaque download transport
  (`GetContentFile`) is modelled as writing a fresh file at the target name, and the
  external `7z` archiving step as writing the `.zip` sibling and unlinking the plain
  file.  The unbounded recursion over the folder graph is modelled with fuel, fuel
  exhaustion being a failure (`none`);
* the `tenacity` retry decorator on `download_file`
  (`stop_after_attempt(5)`, retry on any exception, `reraise=True`).
-/

namespace GDriveSync

/-! ## Timestamps -/

/-- Exact model of the real-valued POSIX timestamps the program compares
(`datetime.timestamp()`, `st_mtime`): whole seconds plus an abstract sub-second
remainder, ordered lexicographically like the underlying real numbers. -/
structure Timestamp where
  sec : Int
  frac : Nat
deriving DecidableEq

/-- Strict chronological order on timestamps. -/
def Timestamp.ltB (a b : Timestamp) : Bool :=
  a.sec < b.sec || (a.sec == b.sec && a.frac < b.frac)

theorem Timestamp.ltB_iff {a b : Timestamp} :
    a.ltB b = true ↔ a.sec < b.sec ∨ (a.sec = b.sec ∧ a.frac < b.frac) := by
  simp [Timestamp.ltB]

theorem Timestamp.ltB_asymm_eq {a b : Timestamp} (h₁ : a.ltB b = false)
    (h₂ : b.ltB a = false) : a = b := by
  rw [← Bool.not_eq_true, Timestamp.ltB_iff] at h₁ h₂
  cases a; cases b
  simp only [Timestamp.mk.injEq]
  simp only at h₁ h₂
  constructor <;> omega

theorem Timestamp.ltB_trans {a b c : Timestamp} (h₁ : a.ltB b = true)
    (h₂ : b.ltB c = true) : a.ltB c = true := by
  rw [Timestamp.ltB_iff] at *
  omega

theorem Timestamp.ltB_irrefl (a : Timestamp) : a.ltB a = false := by
  rw [← Bool.not_eq_true, Timestamp.ltB_iff]
  omega

theorem Timestamp.ltB_asym {a b : Timestamp} (h : a.ltB b = true) :
    b.ltB a = false := by
  cases hba : b.ltB a
  · rfl
  · have := Timestamp.ltB_trans h hba
    rw [Timestamp.ltB_irrefl] at this
    cases this

/-! ## Code-point string order

Python compares strings lexicographically by code point.  The core library's
`String` comparison does not reduce in the kernel, so the same order is defined
directly on the underlying character lists. -/

def charListLtB : List Char → List Char → Bool
  | [], [] => false
  | [], _ :: _ => true
  | _ :: _, [] => false
  | a :: as, b :: bs =>
    if a.toNat < b.toNat then true
    else if b.toNat < a.toNat then false
    else charListLtB as bs

/-- Strict lexicographic (code point) order on strings, as used by Python's `<`
on the components of the sort key. -/
def strLtB (a b : String) : Bool := charListLtB a.data b.data

theorem charEqOfToNat {a b : Char} (h : a.toNat = b.toNat) : a = b :=
  Char.ext (UInt32.ext h)

theorem charListLtB_cons_iff {a b : Char} {as bs : List Char} :
    charListLtB (a :: as) (b :: bs) = true ↔
      a.toNat < b.toNat ∨ (a.toNat = b.toNat ∧ charListLtB as bs = true) := by
  simp only [charListLtB]
  by_cases h₁ : a.toNat < b.toNat
  · simp [h₁]
  · by_cases h₂ : b.toNat < a.toNat
    · simp [h₁, h₂]
      omega
    · have heq : a.toNat = b.toNat := by omega
      simp [h₁, h₂, heq]

theorem charListLtB_asymm_eq : ∀ {a b : List Char},
    charListLtB a b = false → charListLtB b a = false → a = b
  | [], [], _, _ => rfl
  | [], _ :: _, h₁, _ => by simp [charListLtB] at h₁
  | _ :: _, [], _, h₂ => by simp [charListLtB] at h₂
  | a :: as, b :: bs, h₁, h₂ => by
    rw [← Bool.not_eq_true, charListLtB_cons_iff] at h₁ h₂
    push_neg at h₁ h₂
    have heq : a.toNat = b.toNat := by omega
    have e := charEqOfToNat heq
    subst e
    have h₁' := (h₁.2 rfl)
    have h₂' := (h₂.2 rfl)
    simp only [Bool.not_eq_true] at h₁' h₂'
    rw [charListLtB_asymm_eq h₁' h₂']

theorem charListLtB_trans : ∀ {a b c : List Char},
    charListLtB a b = true → charListLtB b c = true → charListLtB a c = true
  | [], [], _, h, _ => by simp [charListLtB] at h
  | _ :: _, [], _, h, _ => by simp [charListLtB] at h
  | _, _ :: _, [], _, h => by simp [charListLtB] at h
  | [], _ :: _, _ :: _, _, _ => by simp [charListLtB]
  | a :: as, b :: bs, c :: cs, h₁, h₂ => by
    rw [charListLtB_cons_iff] at h₁ h₂ ⊢
    rcases h₁ with h₁ | ⟨e₁, h₁⟩
    · rcases h₂ with h₂ | ⟨e₂, h₂⟩
      · left; omega
      · left; omega
    · rcases h₂ with h₂ | ⟨e₂, h₂⟩
      · left; omega
      · right
        exact ⟨by omega, charListLtB_trans h₁ h₂⟩

theorem charListLtB_irrefl : ∀ (a : List Char), charListLtB a a = false
  | [] => rfl
  | a :: as => by
    rw [← Bool.not_eq_true, charListLtB_cons_iff]
    push_neg
    constructor
    · omega
    · intro _
      simp [charListLtB_irrefl as]

theorem strLtB_asymm_eq {a b : String} (h₁ : strLtB a b = false)
    (h₂ : strLtB b a = false) : a = b :=
  String.ext (charListLtB_asymm_eq h₁ h₂)

theorem strLtB_trans {a b c : String} (h₁ : strLtB a b = true)
    (h₂ : strLtB b c = true) : strLtB a c = true :=
  charListLtB_trans h₁ h₂

theorem strLtB_irrefl (a : String) : strLtB a a = false :=
  charListLtB_irrefl a.data

theorem strLtB_asym {a b : String} (h : strLtB a b = true) : strLtB b a = false := by
  cases hba : strLtB b a
  · rfl
  · have := strLtB_trans h hba
    rw [strLtB_irrefl] at this
    cases this

/-! ## Remote object model -/

/-- Entry of `obj.parents` (discarding fields the program never reads). -/
structure RemoteParentFolder where
  id : String
  is_root : Bool
deriving DecidableEq

/-- Per-file local sync information produced once per folder per run
(`LocalInfo` in the source).  The `dir_path` field of the source is the directory
the reconciler is already operating in, so it is left implicit here; the opaque
`GoogleDriveFile` handle is omitted. -/
structure LocalInfo where
  mime_type : Option String
  file_name : String
  archive_file_name : Option String
deriving DecidableEq

/-- Remote file or folder (`RemoteObj` in the source, dropping the opaque
`gdrive_file` handle; `local_info` is threaded explicitly instead of being a
mutable field). -/
structure RemoteObj where
  id : String
  title : String
  mime_type : String
  file_size : Option Nat
  modified_date : Timestamp
  parents : List RemoteParentFolder
deriving DecidableEq

def FOLDER_MIME : String := "application/vnd.google-apps.folder"

/-- The `MIMETYPES` table: remote mime type ↦ (download-as mime type, extension). -/
def MIMETYPES : String → Option (String × String)
  | "application/vnd.google-apps.spreadsheet" =>
    some ("application/vnd.openxmlformats-officedocument.spreadsheetml.sheet", "xlsx")
  | "application/vnd.google-apps.document" =>
    some ("application/vnd.openxmlformats-officedocument.wordprocessingml.document", "docx")
  | "application/vnd.google-apps.presentation" =>
    some ("application/vnd.openxmlformats-officedocument.presentationml.presentation", "pptx")
  | "application/vnd.google-apps.drawing" => some ("image/svg+xml", "svg")
  | _ => none

/-- Statistics counters (`Stats` in the source). -/
structure Stats where
  total_file_count : Nat := 0
  total_folder_count : Nat := 0
  total_file_size : Nat := 0
  synced_file_count : Nat := 0
  synced_file_size : Nat := 0
  skipped_file_count : Nat := 0
  deleted_file_count : Nat := 0
  deleted_file_size : Nat := 0
deriving DecidableEq

/-- Node of the flattened remote tree (`TreeNode` in the source). -/
structure TreeNode where
  title : String := ""
  folders : List String := []
  files : List RemoteObj := []
deriving DecidableEq

/-! ## Name resolver -/

/-- The `f".{dst_ext}" if dst_ext else ""` step of `_sanitize_file_name`. -/
def extDot : Option String → String
  | none => ""
  | some e => if e = "" then "" else "." ++ e

/-- Python's `file_name.replace("/", "_")`: the pattern is a single character, so
this is a character map. -/
def replaceSlash (s : String) : String :=
  ⟨s.data.map (fun c => if c = '/' then '_' else c)⟩

/-- Length of the longest string in a list; an upper bound used to prove the
sanitizing `while` loop terminates. -/
def maxLen (seen : List String) : Nat :=
  seen.foldr (fun s acc => max s.length acc) 0

/-- The `while True` loop body of `_sanitize_file_name`: keep appending the
literal `" (1)"` until `file_name + dst_ext` is no longer among the names already
seen.  The loop is run on explicit fuel; `sanitize_file_name` supplies fuel that
provably suffices (`sanitizeLoop_not_mem`), so the fuel-out branch is never
reached. -/
def sanitizeLoop (ext : String) (seen : List String) : Nat → String → String
  | 0, fn => fn ++ ext
  | fuel + 1, fn =>
    if fn ++ ext ∈ seen then sanitizeLoop ext seen fuel (fn ++ " (1)")
    else fn ++ ext

/-- `TreeNode._sanitize_file_name` from the source: replace `/` by `_`, then
de-duplicate against the names already assigned in this folder. -/
def sanitize_file_name (file_name : String) (dst_ext : Option String)
    (seen : List String) : String :=
  sanitizeLoop (extDot dst_ext) seen (maxLen seen + 1) (replaceSlash file_name)

theorem mem_length_le_maxLen {s : String} {seen : List String} (h : s ∈ seen) :
    s.length ≤ maxLen seen := by
  induction seen with
  | nil => cases h
  | cons t rest ih =>
    rcases List.mem_cons.mp h with h | h
    · subst h; simp [maxLen]
    · simp only [maxLen, List.foldr_cons]
      exact le_trans (ih h) (le_max_right _ _)

theorem sanitizeLoop_not_mem (ext : String) (seen : List String) :
    ∀ (fuel : Nat) (fn : String), maxLen seen < fuel + fn.length →
      sanitizeLoop ext seen fuel fn ∉ seen := by
  intro fuel
  induction fuel with
  | zero =>
    intro fn h hmem
    simp only [sanitizeLoop] at hmem
    have := mem_length_le_maxLen hmem
    rw [String.length_append] at this
    omega
  | succ n ih =>
    intro fn h
    simp only [sanitizeLoop]
    by_cases hmem : fn ++ ext ∈ seen
    · simp only [hmem, if_true]
      apply ih
      have h4 : (fn ++ " (1)").length = fn.length + 4 := by
        rw [String.length_append]
        rfl
      omega
    · simp only [if_neg hmem]
      exact hmem

theorem sanitize_file_name_not_mem (file_name : String) (dst_ext : Option String)
    (seen : List String) : sanitize_file_name file_name dst_ext seen ∉ seen := by
  apply sanitizeLoop_not_mem
  omega

/-- Sort key order of `make_local_file_info`: ascending by
`(title, modified_date, id)`, each component compared the way Python compares
tuples. -/
def keyLeB (a b : RemoteObj) : Bool :=
  if strLtB a.title b.title then true
  else if strLtB b.title a.title then false
  else if a.modified_date.ltB b.modified_date then true
  else if b.modified_date.ltB a.modified_date then false
  else !(strLtB b.id a.id)

def keyLe (a b : RemoteObj) : Prop := keyLeB a b = true

instance : DecidableRel keyLe := fun a b => by
  unfold keyLe
  infer_instance

theorem keyLe_iff {a b : RemoteObj} : keyLe a b ↔
    strLtB a.title b.title = true ∨ (a.title = b.title ∧
      (a.modified_date.ltB b.modified_date = true ∨
        (a.modified_date = b.modified_date ∧ strLtB b.id a.id = false))) := by
  unfold keyLe keyLeB
  by_cases t₁ : strLtB a.title b.title = true
  · simp [t₁]
  · by_cases t₂ : strLtB b.title a.title = true
    · have hne : a.title ≠ b.title := by
        intro h
        rw [h, strLtB_irrefl] at t₂
        cases t₂
      simp [t₁, t₂, hne]
    · have ht : a.title = b.title :=
        strLtB_asymm_eq (by simpa using t₁) (by simpa using t₂)
      by_cases d₁ : a.modified_date.ltB b.modified_date = true
      · simp [t₁, t₂, d₁, ht]
      · by_cases d₂ : b.modified_date.ltB a.modified_date = true
        · have hne : a.modified_date ≠ b.modified_date := by
            intro h
            rw [h, Timestamp.ltB_irrefl] at d₂
            cases d₂
          simp [t₁, t₂, d₁, d₂, ht, hne]
        · have hd : a.modified_date = b.modified_date :=
            Timestamp.ltB_asymm_eq (by simpa using d₁) (by simpa using d₂)
          simp [t₁, t₂, d₁, d₂, ht, hd, Bool.not_eq_true', strLtB_irrefl,
            Timestamp.ltB_irrefl]

theorem keyLe_total (a b : RemoteObj) : keyLe a b ∨ keyLe b a := by
  rw [keyLe_iff, keyLe_iff]
  by_cases t₁ : strLtB a.title b.title = true
  · left; left; exact t₁
  · by_cases t₂ : strLtB b.title a.title = true
    · right; left; exact t₂
    · have ht : a.title = b.title :=
        strLtB_asymm_eq (by simpa using t₁) (by simpa using t₂)
      by_cases d₁ : a.modified_date.ltB b.modified_date = true
      · left; right; exact ⟨ht, Or.inl d₁⟩
      · by_cases d₂ : b.modified_date.ltB a.modified_date = true
        · right; right; exact ⟨ht.symm, Or.inl d₂⟩
        · have hd : a.modified_date = b.modified_date :=
            Timestamp.ltB_asymm_eq (by simpa using d₁) (by simpa using d₂)
          by_cases i₁ : strLtB b.id a.id = true
          · right; right
            exact ⟨ht.symm, Or.inr ⟨hd.symm, strLtB_asym i₁⟩⟩
          · left; right
            exact ⟨ht, Or.inr ⟨hd, by simpa using i₁⟩⟩

instance : IsTotal RemoteObj keyLe := ⟨keyLe_total⟩

/-- Ties in `keyLe` force equality of the whole sort key. -/
theorem keyLe_antisymm_key {a b : RemoteObj} (h₁ : keyLe a b) (h₂ : keyLe b a) :
    a.title = b.title ∧ a.modified_date = b.modified_date ∧ a.id = b.id := by
  rw [keyLe_iff] at h₁ h₂
  rcases h₁ with h₁ | ⟨ht₁, h₁⟩
  · rcases h₂ with h₂ | ⟨ht₂, _⟩
    · have := strLtB_trans h₁ h₂
      rw [strLtB_irrefl] at this
      cases this
    · rw [ht₂, strLtB_irrefl] at h₁
      cases h₁
  · rcases h₂ with h₂ | ⟨ht₂, h₂⟩
    · rw [ht₁, strLtB_irrefl] at h₂
      cases h₂
    · refine ⟨ht₁, ?_⟩
      rcases h₁ with h₁ | ⟨hd₁, h₁⟩
      · rcases h₂ with h₂ | ⟨hd₂, _⟩
        · have := Timestamp.ltB_trans h₁ h₂
          rw [Timestamp.ltB_irrefl] at this
          cases this
        · rw [hd₂, Timestamp.ltB_irrefl] at h₁
          cases h₁
      · rcases h₂ with h₂ | ⟨hd₂, h₂⟩
        · rw [hd₁, Timestamp.ltB_irrefl] at h₂
          cases h₂
        · exact ⟨hd₁, strLtB_asymm_eq h₂ h₁⟩

theorem keyLe_trans (a b c : RemoteObj) (h₁ : keyLe a b) (h₂ : keyLe b c) :
    keyLe a c := by
  rw [keyLe_iff] at *
  rcases h₁ with h₁ | ⟨ht₁, h₁⟩
  · rcases h₂ with h₂ | ⟨ht₂, _⟩
    · exact Or.inl (strLtB_trans h₁ h₂)
    · rw [ht₂] at h₁
      exact Or.inl h₁
  · rcases h₂ with h₂ | ⟨ht₂, h₂⟩
    · rw [ht₁]
      exact Or.inl h₂
    · refine Or.inr ⟨ht₁.trans ht₂, ?_⟩
      rcases h₁ with h₁ | ⟨hd₁, h₁⟩
      · rcases h₂ with h₂ | ⟨hd₂, _⟩
        · exact Or.inl (Timestamp.ltB_trans h₁ h₂)
        · rw [hd₂] at h₁
          exact Or.inl h₁
      · rcases h₂ with h₂ | ⟨hd₂, h₂⟩
        · rw [hd₁]
          exact Or.inl h₂
        · refine Or.inr ⟨hd₁.trans hd₂, ?_⟩
          cases hca : strLtB c.id a.id
          · rfl
          · exfalso
            cases hab : strLtB a.id b.id
            · have : a.id = b.id := strLtB_asymm_eq hab h₁
              rw [← this] at h₂
              rw [h₂] at hca
              cases hca
            · have := strLtB_trans hca hab
              rw [this] at h₂
              cases h₂

instance : IsTrans RemoteObj keyLe := ⟨keyLe_trans⟩

/-- The final on-disk name of a file: `obj.local_info.archive_file_name or
obj.local_info.file_name`. -/
def finalNameOf (info : LocalInfo) : String :=
  info.archive_file_name.getD info.file_name

/-- The per-file loop body of `make_local_file_info`: resolve each file's local
name against the names already assigned, accumulating `file_names_seen`. -/
def assignNames (archive : Bool) : List RemoteObj → List String →
    List (RemoteObj × LocalInfo)
  | [], _ => []
  | obj :: rest, seen =>
    let dst := MIMETYPES obj.mime_type
    let file_name := sanitize_file_name obj.title (dst.map Prod.snd) seen
    let archive_file_name := if archive then some (file_name ++ ".zip") else none
    (obj, ⟨dst.map Prod.fst, file_name, archive_file_name⟩) ::
      assignNames archive rest (file_name :: seen)

/-- `TreeNode.make_local_file_info`: sort the folder's files by
`(title, modified_date, id)` (Python's sort is stable; so is `insertionSort`),
then assign collision-free local names in that order. -/
def make_local_file_info (archive : Bool) (files : List RemoteObj) :
    List (RemoteObj × LocalInfo) :=
  assignNames archive (List.insertionSort keyLe files) []

/-! ## Tree builder -/

/-- The tree is `collections.defaultdict(TreeNode)` keyed by folder id, modelled
as an association list. -/
abbrev Tree := List (String × TreeNode)

def assocFind {β : Type} (k : String) : List (String × β) → Option β
  | [] => none
  | (k', v) :: rest => if k' = k then some v else assocFind k rest

/-- Reading `tree[folder_id]`: a missing key yields a default-constructed node. -/
def treeFind (tree : Tree) (k : String) : TreeNode :=
  (assocFind k tree).getD {}

/-- Mutating access `tree[k]` on the defaultdict: the key is inserted with a
default node if absent, then updated. -/
def treeModify (k : String) (f : TreeNode → TreeNode) : Tree → Tree
  | [] => [(k, f {})]
  | (k', v) :: rest =>
    if k' = k then (k, f v) :: rest else (k', v) :: treeModify k f rest

/-- The object loop of `get_tree`: orphans (no parent) are skipped, more than one
parent fails the `assert len(obj.parents) == 1` (modelled as `none`), folders are
appended to the parent's folder list and titled, files are appended to the
parent's file list with the counters updated. -/
def buildTree : List RemoteObj → Stats → Tree → Option String →
    Option (Stats × Tree × Option String)
  | [], stats, tree, root => some (stats, tree, root)
  | obj :: rest, stats, tree, root =>
    match obj.parents with
    | [] => buildTree rest stats tree root
    | [parent] =>
      let root := if parent.is_root then some parent.id else root
      if obj.mime_type = FOLDER_MIME then
        let tree₁ := treeModify parent.id
          (fun n => {n with folders := n.folders ++ [obj.id]}) tree
        let tree₂ := treeModify obj.id (fun n => {n with title := obj.title}) tree₁
        buildTree rest
          {stats with total_folder_count := stats.total_folder_count + 1} tree₂ root
      else
        let tree₁ := treeModify parent.id
          (fun n => {n with files := n.files ++ [obj]}) tree
        buildTree rest
          {stats with total_file_count := stats.total_file_count + 1,
                      total_file_size := stats.total_file_size + obj.file_size.getD 0}
          tree₁ root
    | _ :: _ :: _ => none

/-- `get_tree` from the source, restricted to its pure tree-building loop (the
provider listing is the input, the `Syncer` construction just packages the
results). -/
def get_tree (objs : List RemoteObj) : Option (Stats × Tree × Option String) :=
  buildTree objs {} [] none

/-! ## Local filesystem model

A directory's content is an association list from entry name to entry; every
entry carries a modification timestamp.  The model of each filesystem call used
by the program (`exists`/`stat`, write, `utime`, `unlink`, `rmtree`, `mkdir`,
`iterdir`) acts on this structure. -/

inductive FSNode where
  | file (mtime : Timestamp) (size : Nat)
  | dir (mtime : Timestamp) (children : List (String × FSNode))

abbrev Dir := List (String × FSNode)

def FSNode.mtime : FSNode → Timestamp
  | file m _ => m
  | dir m _ => m

/-- `os.utime`: replace the entry's modification time. -/
def FSNode.setMtime (t : Timestamp) : FSNode → FSNode
  | file _ sz => file t sz
  | dir _ c => dir t c

/-- Create or overwrite the entry named `k`. -/
def childInsert (k : String) (v : FSNode) : Dir → Dir
  | [] => [(k, v)]
  | (k', v') :: rest =>
    if k' = k then (k, v) :: rest else (k', v') :: childInsert k v rest

/-- Remove the entry named `k` (`unlink`). -/
def childErase (k : String) : Dir → Dir
  | [] => []
  | (k', v') :: rest => if k' = k then rest else (k', v') :: childErase k rest

/-- A placeholder modification time for freshly created entries; every file the
program creates gets its definitive time from the subsequent `os.utime`. -/
def freshMtime : Timestamp := ⟨0, 0⟩

/-! ## Reconciler -/

/-- `Syncer.check_file_synced`: resolve the archive-aware on-disk name, test
existence, and compare the entry's `st_mtime` with the remote timestamp; on a
hit the skipped-file counter is incremented. -/
def check_file_synced (obj : RemoteObj) (info : LocalInfo) (d : Dir)
    (stats : Stats) : Bool × Stats :=
  let file_name := info.archive_file_name.getD info.file_name
  match assocFind file_name d with
  | none => (false, stats)
  | some e =>
    if e.mtime = obj.modified_date then
      (true, {stats with skipped_file_count := stats.skipped_file_count + 1})
    else
      (false, stats)

/-- Whether the entry at `k` is a directory: the condition under which opening
`k` for writing (or creating an archive at `k`) fails. -/
def isDirAt (k : String) (d : Dir) : Bool :=
  match assocFind k d with
  | some (FSNode.dir _ _) => true
  | _ => false

/-- `Syncer.download_file` (single successful pass through the body) together
with `Syncer.archive_file`: write the content at the plain name (writing over a
directory is a filesystem error), bump the synced-file counter, and in archive
mode produce the `.zip` sibling by the external `7z` call and unlink the plain
file.  Returns the path the content ends up at.  The byte size produced by the
opaque transport is abstracted as the advertised remote size. -/
def download_file (archive : Bool) (obj : RemoteObj) (info : LocalInfo) (d : Dir)
    (stats : Stats) : Option (String × Dir × Stats) :=
  if isDirAt info.file_name d then none
  else
    let d₁ := childInsert info.file_name
      (FSNode.file freshMtime (obj.file_size.getD 0)) d
    let stats₁ := {stats with synced_file_count := stats.synced_file_count + 1}
    if archive then
      let zip_name := info.file_name ++ ".zip"
      if isDirAt zip_name d₁ then none
      else
        some (zip_name,
          childErase info.file_name
            (childInsert zip_name (FSNode.file freshMtime (obj.file_size.getD 0)) d₁),
          stats₁)
    else
      some (info.file_name, d₁, stats₁)

/-- `Syncer.sync_file`: skip when already synced, otherwise download and then set
the local file's timestamp to the remote modification timestamp. -/
def sync_file (archive : Bool) (obj : RemoteObj) (info : LocalInfo) (d : Dir)
    (stats : Stats) : Option (Dir × Stats) :=
  match check_file_synced obj info d stats with
  | (true, stats₁) => some (d, stats₁)
  | (false, stats₁) =>
    match download_file archive obj info d stats₁ with
    | none => none
    | some (final_name, d₁, stats₂) =>
      match assocFind final_name d₁ with
      | none => none
      | some e =>
        some (childInsert final_name (e.setMtime obj.modified_date) d₁, stats₂)

/-- The `for obj in node.files` loop of `sync_folder`, accumulating the
`file_names_seen` set (as a list). -/
def syncFiles (archive : Bool) : List (RemoteObj × LocalInfo) → Dir → Stats →
    List String → Option (Dir × Stats × List String)
  | [], d, stats, seen => some (d, stats, seen)
  | (obj, info) :: rest, d, stats, seen =>
    match sync_file archive obj info d stats with
    | none => none
    | some (d₁, stats₁) =>
      syncFiles archive rest d₁ stats₁ (seen ++ [finalNameOf info])

/-- `Syncer.delete_removed_files`: walk the directory listing; entries whose
name was seen this run survive, unlisted directories are `rmtree`d (no counter
change), unlisted files are unlinked with the deleted-file counters updated by
the entry's size. -/
def delete_removed_files (seen : List String) : Dir → Stats → Dir × Stats
  | [], stats => ([], stats)
  | (name, FSNode.dir m c) :: rest, stats =>
    if name ∈ seen then
      let r := delete_removed_files seen rest stats
      ((name, FSNode.dir m c) :: r.1, r.2)
    else
      delete_removed_files seen rest stats
  | (name, FSNode.file m sz) :: rest, stats =>
    if name ∈ seen then
      let r := delete_removed_files seen rest stats
      ((name, FSNode.file m sz) :: r.1, r.2)
    else
      delete_removed_files seen rest
        {stats with deleted_file_count := stats.deleted_file_count + 1,
                    deleted_file_size := stats.deleted_file_size + sz}

/-- The `for folder_id in node.folders` loop of `sync_folder`: recurse and add
the returned folder title to the seen set. -/
def syncChildren (recur : String → Dir → Stats → Option (String × Dir × Stats)) :
    List String → Dir → Stats → List String → Option (Dir × Stats × List String)
  | [], d, stats, seen => some (d, stats, seen)
  | folder_id :: rest, d, stats, seen =>
    match recur folder_id d stats with
    | none => none
    | some (folder_name, d₁, stats₁) =>
      syncChildren recur rest d₁ stats₁ (seen ++ [folder_name])

/-- The body of `Syncer.sync_folder` operating inside the folder's own local
directory `c`: resolve local names, sync every file, recurse into child folders,
then delete the on-disk entries that were not seen this run. -/
def syncBody (archive : Bool) (tree : Tree)
    (recur : String → Dir → Stats → Option (String × Dir × Stats))
    (folder_id : String) (c : Dir) (stats : Stats) : Option (Dir × Stats) :=
  let node := treeFind tree folder_id
  let infos := make_local_file_info archive node.files
  match syncFiles archive infos c stats [] with
  | none => none
  | some (c₁, stats₁, seen₁) =>
    match syncChildren recur node.folders c₁ stats₁ seen₁ with
    | none => none
    | some (c₂, stats₂, seen₂) => some (delete_removed_files seen₂ c₂ stats₂)

/-- `Syncer.sync_folder`, invoked with the parent's directory `d`.  The folder's
own directory is `parent / title`; per `pathlib` joining an empty title denotes
the parent directory itself, otherwise `mkdir(exist_ok=True)` reuses an existing
subdirectory, fails on an existing file, and creates the directory when absent.
The unbounded recursion over the folder graph runs on fuel; exhaustion is a
failure (`none`), so a completed run never hit the bound. -/
def sync_folder (archive : Bool) (tree : Tree) :
    Nat → String → Dir → Stats → Option (String × Dir × Stats)
  | 0, _, _, _ => none
  | fuel + 1, folder_id, d, stats =>
    let node := treeFind tree folder_id
    if node.title = "" then
      match syncBody archive tree (sync_folder archive tree fuel) folder_id d stats with
      | none => none
      | some (d₁, stats₁) => some (node.title, d₁, stats₁)
    else
      match assocFind node.title d with
      | some (FSNode.file _ _) => none
      | some (FSNode.dir m c) =>
        match syncBody archive tree (sync_folder archive tree fuel) folder_id c stats with
        | none => none
        | some (c₁, stats₁) =>
          some (node.title, childInsert node.title (FSNode.dir m c₁) d, stats₁)
      | none =>
        match syncBody archive tree (sync_folder archive tree fuel) folder_id [] stats with
        | none => none
        | some (c₁, stats₁) =>
          some (node.title, childInsert node.title (FSNode.dir freshMtime c₁) d, stats₁)

/-- Number of file sync events a run performs below a folder (each remote file
of each reachable folder occurrence, within the given fuel). -/
def countFiles (tree : Tree) : Nat → String → Nat
  | 0, _ => 0
  | fuel + 1, folder_id =>
    (treeFind tree folder_id).files.length +
      ((treeFind tree folder_id).folders.map (countFiles tree fuel)).sum

/-! ## Retrying fetcher

`download_file` is decorated with `tenacity.retry(retry_if_exception_type
(Exception), stop_after_attempt(5), reraise=True)`: any failure is retried until
five total attempts have been made, and after the fifth failure the last
exception is re-raised unchanged.  The decorated body is abstracted as a map
from the attempt number to that attempt's outcome. -/

def retryAttempts {E A : Type} (op : Nat → Except E A) : Nat → Nat → Except E A
  | attempt, 0 => op attempt
  | attempt, budget + 1 =>
    match op attempt with
    | Except.ok a => Except.ok a
    | Except.error _ => retryAttempts op (attempt + 1) budget

/-- The retry policy wrapping `download_file`: attempts are numbered 1..5; the
fifth failure propagates. -/
def download_file_retrying {E A : Type} (op : Nat → Except E A) : Except E A :=
  retryAttempts op 1 4

/-! ## Name resolver lemmas -/

theorem assignNames_fst (archive : Bool) : ∀ (files : List RemoteObj)
    (seen : List String), (assignNames archive files seen).map Prod.fst = files
  | [], _ => rfl
  | _ :: rest, seen => by
    simp only [assignNames, List.map_cons]
    rw [assignNames_fst archive rest]

theorem assignNames_names (archive : Bool) : ∀ (files : List RemoteObj)
    (seen : List String),
    (∀ n ∈ (assignNames archive files seen).map (fun p => p.2.file_name), n ∉ seen)
    ∧ ((assignNames archive files seen).map (fun p => p.2.file_name)).Nodup
  | [], _ => by simp [assignNames]
  | obj :: rest, seen => by
    have ih := assignNames_names archive rest
      (sanitize_file_name obj.title ((MIMETYPES obj.mime_type).map Prod.snd) seen :: seen)
    simp only [assignNames, List.map_cons, List.mem_cons, List.nodup_cons]
    refine ⟨?_, ?_, ih.2⟩
    · rintro n (rfl | hn)
      · exact sanitize_file_name_not_mem _ _ _
      · intro hmem
        exact ih.1 n hn (List.mem_cons_of_mem _ hmem)
    · intro hmem
      exact ih.1 _ hmem (List.mem_cons_self _ _)

theorem assignNames_archive_name (archive : Bool) : ∀ (files : List RemoteObj)
    (seen : List String) (p : RemoteObj × LocalInfo),
    p ∈ assignNames archive files seen →
    p.2.archive_file_name = if archive then some (p.2.file_name ++ ".zip") else none
  | [], _, _, h => by cases h
  | obj :: rest, seen, p, h => by
    simp only [assignNames, List.mem_cons] at h
    rcases h with rfl | h
    · rfl
    · exact assignNames_archive_name archive rest _ p h

theorem assignNames_final (archive : Bool) {files : List RemoteObj}
    {seen : List String} {p : RemoteObj × LocalInfo}
    (h : p ∈ assignNames archive files seen) :
    finalNameOf p.2 = if archive then p.2.file_name ++ ".zip" else p.2.file_name := by
  have := assignNames_archive_name archive files seen p h
  unfold finalNameOf
  cases archive <;> simp_all

theorem append_zip_inj : Function.Injective (fun s : String => s ++ ".zip") := by
  intro a b h
  simp only at h
  apply String.ext
  have : a.data ++ ".zip".data = b.data ++ ".zip".data := by
    rw [← String.data_append, ← String.data_append, h]
  exact List.append_left_injective _ this

theorem str_append_zip_ne (s : String) : s ++ ".zip" ≠ s := by
  intro h
  have := congrArg String.length h
  rw [String.length_append] at this
  have h4 : (".zip" : String).length = 4 := rfl
  omega

theorem assignNames_final_nodup (archive : Bool) (files : List RemoteObj)
    (seen : List String) :
    ((assignNames archive files seen).map (fun p => finalNameOf p.2)).Nodup := by
  have hnames := (assignNames_names archive files seen).2
  cases archive
  · have : (assignNames false files seen).map (fun p => finalNameOf p.2)
        = (assignNames false files seen).map (fun p => p.2.file_name) :=
      List.map_congr_left (fun p hp => assignNames_final false hp)
    rw [this]
    exact hnames
  · have : (assignNames true files seen).map (fun p => finalNameOf p.2)
        = ((assignNames true files seen).map (fun p => p.2.file_name)).map
            (fun s => s ++ ".zip") := by
      rw [List.map_map]
      exact List.map_congr_left (fun p hp => assignNames_final true hp)
    rw [this]
    exact List.Nodup.map append_zip_inj hnames

theorem sanitize_file_name_nil (t : String) (e : Option String) :
    sanitize_file_name t e [] = replaceSlash t ++ extDot e := by
  simp [sanitize_file_name, sanitizeLoop, maxLen]

/-- The resolver's output pairs each input file (in sorted order) with its info. -/
theorem make_local_file_info_fst (archive : Bool) (files : List RemoteObj) :
    (make_local_file_info archive files).map Prod.fst =
      List.insertionSort keyLe files :=
  assignNames_fst archive _ []

theorem make_local_file_info_head {archive : Bool} {files : List RemoteObj}
    {o : RemoteObj} {info : LocalInfo} {rest : List (RemoteObj × LocalInfo)}
    (h : make_local_file_info archive files = (o, info) :: rest) :
    info.file_name = replaceSlash o.title ++
      extDot ((MIMETYPES o.mime_type).map Prod.snd) := by
  unfold make_local_file_info at h
  cases hs : List.insertionSort keyLe files with
  | nil =>
    rw [hs] at h
    cases h
  | cons a tail =>
    rw [hs] at h
    simp only [assignNames, List.cons.injEq, Prod.mk.injEq] at h
    rcases h with ⟨⟨rfl, rfl⟩, _⟩
    exact sanitize_file_name_nil _ _

/-- Two sorted lists that are permutations of each other and whose ids repeat
nowhere are equal (sortedness plus key-antisymmetry pins every position). -/
theorem sorted_perm_nodup_eq : ∀ {l₁ l₂ : List RemoteObj}, l₁.Perm l₂ →
    l₁.Pairwise keyLe → l₂.Pairwise keyLe →
    (l₁.map RemoteObj.id).Nodup → l₁ = l₂
  | [], l₂, hp, _, _, _ => hp.nil_eq
  | a :: t₁, l₂, hp, hs₁, hs₂, hnd => by
    cases l₂ with
    | nil => exact absurd (hp.symm.nil_eq) (by simp)
    | cons b t₂ =>
      by_cases hab : a = b
      · subst hab
        have ht : t₁.Perm t₂ := hp.cons_inv
        rw [sorted_perm_nodup_eq ht (List.pairwise_cons.mp hs₁).2
          (List.pairwise_cons.mp hs₂).2 (by simpa using (List.nodup_cons.mp hnd).2)]
      · exfalso
        have hbmem : b ∈ t₁ := by
          have : b ∈ a :: t₁ := hp.mem_iff.mpr (List.mem_cons_self b t₂)
          rcases List.mem_cons.mp this with h | h
          · exact absurd h.symm hab
          · exact h
        have hamem : a ∈ t₂ := by
          have : a ∈ b :: t₂ := hp.mem_iff.mp (List.mem_cons_self a t₁)
          rcases List.mem_cons.mp this with h | h
          · exact absurd h hab
          · exact h
        have h₁ : keyLe a b := List.rel_of_sorted_cons hs₁ b hbmem
        have h₂ : keyLe b a := List.rel_of_sorted_cons hs₂ a hamem
        have hid : a.id = b.id := (keyLe_antisymm_key h₁ h₂).2.2
        have : a.id ∉ t₁.map RemoteObj.id := (List.nodup_cons.mp (by simpa using hnd)).1
        exact this (hid ▸ List.mem_map_of_mem RemoteObj.id hbmem)

/-! ## Claim C4 -/

/-- Concrete files used in the claim scenarios: title `x`, no conversion. -/
def objX (i : String) (t : Int) : RemoteObj :=
  ⟨i, "x", "text/plain", some 1, ⟨t, 0⟩, []⟩

/-- Concrete files with a converted mime type (spreadsheet ↦ `.xlsx`). -/
def objXls (i : String) : RemoteObj :=
  ⟨i, "x", "application/vnd.google-apps.spreadsheet", some 1, ⟨0, 0⟩, []⟩

/-- C4: for every folder file list the resolver assigns pairwise-distinct local
file names; the file first in the sort order keeps the unsuffixed (sanitized)
name; and collisions re-append the literal `" (1)"` before the extension, so
three files titled `x` resolve to `x`, `x (1)`, `x (1) (1)` (never `x (2)`), and
two colliding spreadsheets to `x.xlsx`, `x (1).xlsx`. -/
theorem name_resolver_distinct_and_suffix :
    (∀ (archive : Bool) (files : List RemoteObj),
      ((make_local_file_info archive files).map (fun p => p.2.file_name)).Nodup)
    ∧ (∀ (archive : Bool) (files : List RemoteObj) (o : RemoteObj)
        (info : LocalInfo) (rest : List (RemoteObj × LocalInfo)),
        make_local_file_info archive files = (o, info) :: rest →
        info.file_name = replaceSlash o.title ++
          extDot ((MIMETYPES o.mime_type).map Prod.snd))
    ∧ (make_local_file_info false [objX "a" 1, objX "b" 2, objX "c" 3]).map
        (fun p => p.2.file_name) = ["x", "x (1)", "x (1) (1)"]
    ∧ (make_local_file_info false [objXls "a", objXls "b"]).map
        (fun p => p.2.file_name) = ["x.xlsx", "x (1).xlsx"] := by
  refine ⟨?_, ?_, by decide, by decide⟩
  · intro archive files
    exact (assignNames_names archive _ []).2
  · intro archive files o info rest h
    exact make_local_file_info_head h

/-- Witness: the general parts of `name_resolver_distinct_and_suffix`
instantiated at a concrete folder. -/
theorem name_resolver_distinct_and_suffix_witness :
    ((make_local_file_info false [objX "a" 1, objX "b" 2]).map
      (fun p => p.2.file_name)).Nodup
    ∧ (⟨none, "x", none⟩ : LocalInfo).file_name = replaceSlash (objX "a" 1).title ++
        extDot ((MIMETYPES (objX "a" 1).mime_type).map Prod.snd) := by
  constructor
  · exact name_resolver_distinct_and_suffix.1 false [objX "a" 1, objX "b" 2]
  · exact name_resolver_distinct_and_suffix.2.1 false [objX "a" 1] (objX "a" 1)
      ⟨none, "x", none⟩ [] (by decide)

/-! ## Claim C5 -/

/-- Two distinct objects sharing the whole sort key `(title, timestamp, id)`. -/
def objKeyP : RemoteObj := ⟨"i", "x", "text/plain", some 1, ⟨0, 0⟩, []⟩

/-- Same key as `objKeyP` but a different object (mime type differs). -/
def objKeyQ : RemoteObj := ⟨"i", "x", "text/other", some 2, ⟨0, 0⟩, []⟩

/-- C5 counterexample: with a duplicated `(title, modified timestamp, id)` key
(two objects sharing an id), permuting the input changes the name assigned to
`objKeyP` from `x` to `x (1)`, so the assignment is not a function of the key
triple for arbitrary file lists. -/
theorem name_resolver_permutation_cex :
    [objKeyQ, objKeyP].Perm [objKeyP, objKeyQ]
    ∧ (objKeyP, (⟨none, "x", none⟩ : LocalInfo)) ∈
        make_local_file_info false [objKeyP, objKeyQ]
    ∧ (objKeyP, (⟨none, "x (1)", none⟩ : LocalInfo)) ∈
        make_local_file_info false [objKeyQ, objKeyP]
    ∧ ("x" : String) ≠ "x (1)" := by
  refine ⟨List.Perm.swap _ _ _, by decide, by decide, by decide⟩

/-- C5 amended: when no id repeats in the folder's file list — the invariant the
remote store guarantees and the spec's tie-breaking presumes — the resolver's
entire output is invariant under permutation of the input list, so every file
gets the same name. -/
theorem name_resolver_permutation_invariant (archive : Bool)
    (files₁ files₂ : List RemoteObj) (hperm : files₁.Perm files₂)
    (hids : (files₁.map RemoteObj.id).Nodup) :
    make_local_file_info archive files₁ = make_local_file_info archive files₂ := by
  unfold make_local_file_info
  have hsort : List.insertionSort keyLe files₁ = List.insertionSort keyLe files₂ := by
    apply sorted_perm_nodup_eq
    · exact ((List.perm_insertionSort keyLe files₁).trans hperm).trans
        (List.perm_insertionSort keyLe files₂).symm
    · exact List.sorted_insertionSort keyLe files₁
    · exact List.sorted_insertionSort keyLe files₂
    · exact hids.perm ((List.perm_insertionSort keyLe files₁).map RemoteObj.id).symm
  rw [hsort]

/-- Witness for the amended C5 at a concrete two-file folder. -/
theorem name_resolver_permutation_invariant_witness :
    make_local_file_info false [objX "a" 1, objX "b" 2] =
      make_local_file_info false [objX "b" 2, objX "a" 1] :=
  name_resolver_permutation_invariant false _ _ (List.Perm.swap _ _ _) (by decide)

/-! ## Retrying fetcher lemmas and claim C7 -/

theorem retryAttempts_all_fail {E A : Type} (op : Nat → Except E A) :
    ∀ (budget attempt : Nat),
    (∀ k, attempt ≤ k → k ≤ attempt + budget → ∃ e, op k = Except.error e) →
    retryAttempts op attempt budget = op (attempt + budget)
  | 0, attempt, _ => by simp [retryAttempts]
  | budget + 1, attempt, h => by
    obtain ⟨e, he⟩ := h attempt (le_refl _) (by omega)
    rw [retryAttempts, he]
    have harith : attempt + (budget + 1) = attempt + 1 + budget := by omega
    rw [harith]
    exact retryAttempts_all_fail op budget (attempt + 1)
      (fun k hk1 hk2 => h k (by omega) (by omega))

theorem retryAttempts_first_success {E A : Type} (op : Nat → Except E A) (a : A) :
    ∀ (budget attempt j : Nat), attempt ≤ j → j ≤ attempt + budget →
    (∀ k, attempt ≤ k → k < j → ∃ e, op k = Except.error e) →
    op j = Except.ok a → retryAttempts op attempt budget = Except.ok a
  | 0, attempt, j, h1, h2, _, hj => by
    have : j = attempt := by omega
    subst this
    simpa [retryAttempts] using hj
  | budget + 1, attempt, j, h1, h2, hfail, hj => by
    by_cases hja : j = attempt
    · subst hja
      rw [retryAttempts, hj]
    · obtain ⟨e, he⟩ := hfail attempt (le_refl _) (by omega)
      rw [retryAttempts, he]
      exact retryAttempts_first_success op a budget (attempt + 1) j (by omega) (by omega)
        (fun k hk1 hk2 => hfail k (by omega) hk2) hj

/-- C7: the download is retried on any failure, up to 5 total attempts, and if
all five attempts fail the fifth attempt's failure is returned to the caller
unchanged (`reraise=True`); a success within the budget is returned as is. -/
theorem download_retry_five_attempts_propagates :
    (∀ (E A : Type) (op : Nat → Except E A) (err : Nat → E),
      (∀ k, 1 ≤ k → k ≤ 5 → op k = Except.error (err k)) →
      download_file_retrying op = Except.error (err 5))
    ∧ (∀ (E A : Type) (op : Nat → Except E A) (a : A) (j : Nat),
      1 ≤ j → j ≤ 5 → (∀ k, 1 ≤ k → k < j → ∃ e, op k = Except.error e) →
      op j = Except.ok a → download_file_retrying op = Except.ok a) := by
  constructor
  · intro E A op err h
    rw [download_file_retrying,
      retryAttempts_all_fail op 4 1 (fun k hk1 hk2 => ⟨err k, h k hk1 (by omega)⟩)]
    exact h 5 (by omega) (by omega)
  · intro E A op a j h1 h5 hfail hj
    exact retryAttempts_first_success op a 4 1 j h1 (by omega) hfail hj

/-- Witness: an operation failing on every attempt with its attempt number makes
the wrapper surface exactly attempt 5's error. -/
theorem download_retry_five_attempts_propagates_witness :
    download_file_retrying (fun k => (Except.error k : Except Nat Unit)) =
      Except.error 5 :=
  download_retry_five_attempts_propagates.1 Nat Unit _ (fun k => k)
    (fun _ _ _ => rfl)

/-! ## Tree builder lemmas and claims C8, C9 -/

theorem buildTree_isSome : ∀ (objs : List RemoteObj) (s : Stats) (t : Tree)
    (r : Option String),
    (buildTree objs s t r).isSome = true ↔ ∀ o ∈ objs, o.parents.length ≤ 1
  | [], s, t, r => by simp [buildTree]
  | obj :: rest, s, t, r => by
    cases hp : obj.parents with
    | nil =>
      simp only [buildTree, hp]
      rw [buildTree_isSome]
      simp only [List.mem_cons]
      constructor
      · rintro h o (rfl | ho)
        · simp [hp]
        · exact h o ho
      · intro h o ho
        exact h o (Or.inr ho)
    | cons p ps =>
      cases ps with
      | nil =>
        simp only [buildTree, hp]
        constructor
        · intro h o ho
          rcases List.mem_cons.mp ho with rfl | ho
          · simp [hp]
          · revert h
            split <;>
              · rw [buildTree_isSome]
                intro h
                exact h o ho
        · intro h
          split <;>
            · rw [buildTree_isSome]
              intro o ho
              exact h o (List.mem_cons_of_mem _ ho)
      | cons q qs =>
        simp only [buildTree, hp]
        constructor
        · intro h
          simp at h
        · intro h
          have := h obj (List.mem_cons_self _ _)
          rw [hp] at this
          simp at this

/-- C8: the tree build completes exactly when no input object reports more than
one parent; a multi-parent object trips the `assert` and aborts, and inputs
whose objects all have zero or one parent never do. -/
theorem tree_builder_multi_parent_iff (objs : List RemoteObj) :
    (get_tree objs).isSome = true ↔ ∀ o ∈ objs, o.parents.length ≤ 1 :=
  buildTree_isSome objs {} [] none

/-- Witness for C8 at concrete inputs: a single-parent listing builds, and a
two-parent object aborts the build. -/
theorem tree_builder_multi_parent_iff_witness :
    (get_tree [⟨"f1", "a", "text/plain", some 5, ⟨3, 0⟩, [⟨"d1", false⟩]⟩]).isSome
      = true
    ∧ (get_tree [⟨"f3", "c", "text/plain", some 7, ⟨0, 0⟩,
        [⟨"root", true⟩, ⟨"d1", false⟩]⟩]).isSome ≠ true := by
  constructor
  · exact (tree_builder_multi_parent_iff _).mpr (by decide)
  · intro h
    have := (tree_builder_multi_parent_iff _).mp h
    simp at this

theorem mem_keys_treeModify_self (k : String) (f : TreeNode → TreeNode) :
    ∀ t : Tree, k ∈ (treeModify k f t).map Prod.fst
  | [] => by simp [treeModify]
  | (k', v) :: rest => by
    simp only [treeModify]
    by_cases h : k' = k
    · simp [h]
    · simp only [if_neg h, List.map_cons, List.mem_cons]
      exact Or.inr (mem_keys_treeModify_self k f rest)

theorem keys_treeModify_mono (k : String) (f : TreeNode → TreeNode) :
    ∀ (t : Tree) (k' : String), k' ∈ t.map Prod.fst →
      k' ∈ (treeModify k f t).map Prod.fst
  | [], _, h => by cases h
  | (k₀, v) :: rest, k', h => by
    simp only [List.map_cons, List.mem_cons] at h
    simp only [treeModify]
    by_cases he : k₀ = k
    · subst he
      rw [if_pos rfl]
      simp only [List.map_cons, List.mem_cons]
      exact h
    · simp only [if_neg he, List.map_cons, List.mem_cons]
      rcases h with h | h
      · exact Or.inl h
      · exact Or.inr (keys_treeModify_mono k f rest k' h)

theorem buildTree_keys : ∀ (objs : List RemoteObj) (s : Stats) (t : Tree)
    (r : Option String) (s' : Stats) (t' : Tree) (r' : Option String),
    buildTree objs s t r = some (s', t', r') →
    (∀ k, k ∈ t.map Prod.fst → k ∈ t'.map Prod.fst)
    ∧ ∀ o ∈ objs, ∀ p, o.parents = [p] → p.id ∈ t'.map Prod.fst
  | [], s, t, r, s', t', r', h => by
    simp only [buildTree, Option.some.injEq] at h
    obtain ⟨_, rfl, _⟩ := h
    exact ⟨fun k hk => hk, by simp⟩
  | obj :: rest, s, t, r, s', t', r', h => by
    rw [buildTree] at h
    cases hp : obj.parents with
    | nil =>
      rw [hp] at h
      have ih := buildTree_keys rest _ _ _ _ _ _ h
      refine ⟨ih.1, ?_⟩
      intro o ho p hpar
      rcases List.mem_cons.mp ho with rfl | ho
      · rw [hp] at hpar
        cases hpar
      · exact ih.2 o ho p hpar
    | cons q qs =>
      cases qs with
      | nil =>
        rw [hp] at h
        simp only at h
        split at h
        · have ih := buildTree_keys rest _ _ _ _ _ _ h
          have hq : q.id ∈ (treeModify obj.id (fun n => {n with title := obj.title})
              (treeModify q.id (fun n => {n with folders := n.folders ++ [obj.id]}) t)).map
                Prod.fst :=
            keys_treeModify_mono _ _ _ _ (mem_keys_treeModify_self _ _ t)
          refine ⟨fun k hk => ih.1 k (keys_treeModify_mono _ _ _ _
            (keys_treeModify_mono _ _ _ _ hk)), ?_⟩
          intro o ho p hpar
          rcases List.mem_cons.mp ho with rfl | ho
          · rw [hp] at hpar
            injection hpar with h₁ _
            subst h₁
            exact ih.1 _ hq
          · exact ih.2 o ho p hpar
        · have ih := buildTree_keys rest _ _ _ _ _ _ h
          have hq : q.id ∈ (treeModify q.id
              (fun n => {n with files := n.files ++ [obj]}) t).map Prod.fst :=
            mem_keys_treeModify_self _ _ t
          refine ⟨fun k hk => ih.1 k (keys_treeModify_mono _ _ _ _ hk), ?_⟩
          intro o ho p hpar
          rcases List.mem_cons.mp ho with rfl | ho
          · rw [hp] at hpar
            injection hpar with h₁ _
            subst h₁
            exact ih.1 _ hq
          · exact ih.2 o ho p hpar
      | cons w ws =>
        rw [hp] at h
        cases h

/-- C9: when every object has exactly one parent, the build succeeds and every
folder id referenced as a parent appears as a key of the built hierarchy (the
defaultdict creates the node on first reference even if that folder is never
itself visited as an object). -/
theorem tree_builder_parent_ids_are_keys (objs : List RemoteObj)
    (h : ∀ o ∈ objs, o.parents.length = 1) :
    ∃ s t r, get_tree objs = some (s, t, r) ∧
      ∀ o ∈ objs, ∀ p ∈ o.parents, p.id ∈ t.map Prod.fst := by
  have hsome : (get_tree objs).isSome = true :=
    (tree_builder_multi_parent_iff objs).mpr (fun o ho => le_of_eq (h o ho))
  obtain ⟨out, hout⟩ := Option.isSome_iff_exists.mp hsome
  obtain ⟨s, t, r⟩ := out
  refine ⟨s, t, r, hout, ?_⟩
  intro o ho p hpmem
  obtain ⟨q, hq⟩ := List.length_eq_one.mp (h o ho)
  have hpq : p = q := by
    rw [hq] at hpmem
    simpa using hpmem
  subst hpq
  exact (buildTree_keys objs {} [] none s t r hout).2 o ho p hq

/-- Witness for C9: a folder under the root plus a file referencing that folder;
both parent ids end up as keys. -/
theorem tree_builder_parent_ids_are_keys_witness :
    ∃ s t r, get_tree [⟨"d1", "Docs", FOLDER_MIME, none, ⟨0, 0⟩, [⟨"root", true⟩]⟩,
        ⟨"f1", "a", "text/plain", some 5, ⟨3, 0⟩, [⟨"d1", false⟩]⟩] = some (s, t, r) ∧
      ∀ o ∈ [⟨"d1", "Docs", FOLDER_MIME, none, ⟨0, 0⟩, [⟨"root", true⟩]⟩,
        (⟨"f1", "a", "text/plain", some 5, ⟨3, 0⟩, [⟨"d1", false⟩]⟩ : RemoteObj)],
        ∀ p ∈ o.parents, p.id ∈ t.map Prod.fst :=
  tree_builder_parent_ids_are_keys _ (by decide)

/-! ## Tree builder counting lemmas and claim C6 -/

/-- A non-folder object with a parent — counted as a file by the builder. -/
def isCountedFile (o : RemoteObj) : Bool :=
  !(o.mime_type == FOLDER_MIME) && !o.parents.isEmpty

/-- A folder object with a parent — counted as a folder by the builder. -/
def isCountedFolder (o : RemoteObj) : Bool :=
  (o.mime_type == FOLDER_MIME) && !o.parents.isEmpty

theorem buildTree_counts : ∀ (objs : List RemoteObj) (s : Stats) (t : Tree)
    (r : Option String) (s' : Stats) (t' : Tree) (r' : Option String),
    buildTree objs s t r = some (s', t', r') →
    s'.total_file_count = s.total_file_count + (objs.filter isCountedFile).length
    ∧ s'.total_folder_count =
        s.total_folder_count + (objs.filter isCountedFolder).length
    ∧ s'.total_file_size = s.total_file_size +
        ((objs.filter isCountedFile).map (fun o => o.file_size.getD 0)).sum
  | [], s, t, r, s', t', r', h => by
    simp only [buildTree, Option.some.injEq] at h
    obtain ⟨rfl, _, _⟩ := h
    simp
  | obj :: rest, s, t, r, s', t', r', h => by
    rw [buildTree] at h
    cases hp : obj.parents with
    | nil =>
      rw [hp] at h
      have ih := buildTree_counts rest _ _ _ _ _ _ h
      have hf : isCountedFile obj = false := by simp [isCountedFile, hp]
      have hd : isCountedFolder obj = false := by simp [isCountedFolder, hp]
      simp only [List.filter_cons, hf, hd, if_false, Bool.false_eq_true]
      exact ih
    | cons q qs =>
      cases qs with
      | nil =>
        rw [hp] at h
        simp only at h
        split at h
        · next hmime =>
          have ih := buildTree_counts rest _ _ _ _ _ _ h
          have hf : isCountedFile obj = false := by
            simp [isCountedFile, hmime]
          have hd : isCountedFolder obj = true := by
            simp [isCountedFolder, hmime, hp]
          simp only [List.filter_cons, hf, hd, if_true, if_false, Bool.false_eq_true,
            List.length_cons] at *
          refine ⟨by omega, by omega, by omega⟩
        · next hmime =>
          have ih := buildTree_counts rest _ _ _ _ _ _ h
          have hf : isCountedFile obj = true := by
            simp [isCountedFile, hmime, hp]
          have hd : isCountedFolder obj = false := by
            simp [isCountedFolder, hmime]
          simp only [List.filter_cons, hf, hd, if_true, if_false, Bool.false_eq_true,
            List.length_cons, List.map_cons, List.sum_cons] at *
          refine ⟨by omega, by omega, by omega⟩
      | cons w ws =>
        rw [hp] at h
        cases h

theorem mem_treeModify {k : String} {f : TreeNode → TreeNode} :
    ∀ {t : Tree} {kv : String × TreeNode}, kv ∈ treeModify k f t →
      kv ∈ t ∨ ∃ n : TreeNode, ((k, n) ∈ t ∨ n = {}) ∧ kv = (k, f n)
  | [], kv, h => by
    simp only [treeModify, List.mem_singleton] at h
    exact Or.inr ⟨{}, Or.inr rfl, h⟩
  | (k₀, v) :: rest, kv, h => by
    simp only [treeModify] at h
    by_cases he : k₀ = k
    · rw [if_pos he] at h
      rcases List.mem_cons.mp h with rfl | h
      · exact Or.inr ⟨v, Or.inl (by rw [← he]; exact List.mem_cons_self _ _), rfl⟩
      · exact Or.inl (List.mem_cons_of_mem _ h)
    · rw [if_neg he] at h
      rcases List.mem_cons.mp h with rfl | h
      · exact Or.inl (List.mem_cons_self _ _)
      · rcases mem_treeModify h with h | ⟨n, hn, rfl⟩
        · exact Or.inl (List.mem_cons_of_mem _ h)
        · exact Or.inr ⟨n, by
            rcases hn with hn | hn
            · exact Or.inl (List.mem_cons_of_mem _ hn)
            · exact Or.inr hn, rfl⟩

theorem buildTree_orphan_files : ∀ (objs : List RemoteObj) (s : Stats) (t : Tree)
    (r : Option String) (s' : Stats) (t' : Tree) (r' : Option String),
    buildTree objs s t r = some (s', t', r') →
    ∀ x : RemoteObj, x.parents = [] →
      (∀ kv ∈ t, x ∉ kv.2.files) → ∀ kv ∈ t', x ∉ kv.2.files
  | [], s, t, r, s', t', r', h => by
    simp only [buildTree, Option.some.injEq] at h
    obtain ⟨_, rfl, _⟩ := h
    exact fun x _ hx => hx
  | obj :: rest, s, t, r, s', t', r', h => by
    rw [buildTree] at h
    cases hp : obj.parents with
    | nil =>
      rw [hp] at h
      exact buildTree_orphan_files rest _ _ _ _ _ _ h
    | cons q qs =>
      cases qs with
      | nil =>
        rw [hp] at h
        simp only at h
        split at h
        · intro x hx hxt
          refine buildTree_orphan_files rest _ _ _ _ _ _ h x hx ?_
          intro kv hkv
          rcases mem_treeModify hkv with hkv | ⟨n, hn, rfl⟩
          · rcases mem_treeModify hkv with hkv | ⟨m, hm, rfl⟩
            · exact hxt kv hkv
            · simp only
              rcases hm with hm | rfl
              · exact hxt _ hm
              · simp
          · simp only
            rcases hn with hn | rfl
            · rcases mem_treeModify hn with hn | ⟨m, hm, he⟩
              · exact hxt _ hn
              · injection he with _ he₂
                subst he₂
                simp only
                rcases hm with hm | rfl
                · exact hxt _ hm
                · simp
            · simp
        · intro x hx hxt
          refine buildTree_orphan_files rest _ _ _ _ _ _ h x hx ?_
          intro kv hkv
          rcases mem_treeModify hkv with hkv | ⟨n, hn, rfl⟩
          · exact hxt kv hkv
          · simp only [List.mem_append]
            rintro (hmem | hmem)
            · rcases hn with hn | rfl
              · exact hxt _ hn hmem
              · simp at hmem
            · have : x = obj := by simpa using hmem
              subst this
              rw [hx] at hp
              cases hp
      | cons w ws =>
        rw [hp] at h
        cases h

/-- C6: on a successful build, the total file and folder counters equal the
numbers of parented non-folder and folder objects, the total byte size sums the
parented non-folder objects' sizes (a missing size counting 0), and orphan
objects appear in no node's file list and contribute to no counter. -/
theorem tree_builder_counts (objs : List RemoteObj) (s : Stats) (t : Tree)
    (r : Option String) (h : get_tree objs = some (s, t, r)) :
    s.total_file_count = (objs.filter isCountedFile).length
    ∧ s.total_folder_count = (objs.filter isCountedFolder).length
    ∧ s.total_file_size =
        ((objs.filter isCountedFile).map (fun o => o.file_size.getD 0)).sum
    ∧ ∀ o ∈ objs, o.parents = [] → ∀ kv ∈ t, o ∉ kv.2.files := by
  have hc := buildTree_counts objs {} [] none s t r h
  refine ⟨by simpa using hc.1, by simpa using hc.2.1, by simpa using hc.2.2, ?_⟩
  intro o _ hop
  exact buildTree_orphan_files objs {} [] none s t r h o hop (by simp)

/-! ## Filesystem lemmas -/

theorem assocFind_childInsert_self (k : String) (v : FSNode) :
    ∀ d : Dir, assocFind k (childInsert k v d) = some v
  | [] => by simp [childInsert, assocFind]
  | (k₀, v₀) :: rest => by
    simp only [childInsert]
    by_cases h : k₀ = k
    · rw [if_pos h]
      simp [assocFind]
    · rw [if_neg h]
      simp only [assocFind, if_neg h]
      exact assocFind_childInsert_self k v rest

theorem assocFind_childInsert_ne {q k : String} (hne : q ≠ k) (v : FSNode) :
    ∀ d : Dir, assocFind q (childInsert k v d) = assocFind q d
  | [] => by
    simp only [childInsert, assocFind]
    rw [if_neg (fun h => hne h.symm)]
  | (k₀, v₀) :: rest => by
    simp only [childInsert]
    by_cases h : k₀ = k
    · subst h
      rw [if_pos rfl]
      simp only [assocFind]
      rw [if_neg (Ne.symm hne), if_neg (Ne.symm hne)]
    · rw [if_neg h]
      simp only [assocFind]
      by_cases hq : k₀ = q
      · rw [if_pos hq, if_pos hq]
      · rw [if_neg hq, if_neg hq]
        exact assocFind_childInsert_ne hne v rest

theorem assocFind_childErase_ne {q k : String} (hne : q ≠ k) :
    ∀ d : Dir, assocFind q (childErase k d) = assocFind q d
  | [] => rfl
  | (k₀, v₀) :: rest => by
    simp only [childErase]
    by_cases h : k₀ = k
    · subst h
      rw [if_pos rfl]
      simp only [assocFind]
      rw [if_neg (Ne.symm hne)]
    · rw [if_neg h]
      simp only [assocFind]
      by_cases hq : k₀ = q
      · rw [if_pos hq, if_pos hq]
      · rw [if_neg hq, if_neg hq]
        exact assocFind_childErase_ne hne rest

theorem assocFind_filter_mem {seen : List String} {k : String} (h : k ∈ seen) :
    ∀ d : Dir,
      assocFind k (d.filter (fun e => decide (e.1 ∈ seen))) = assocFind k d
  | [] => rfl
  | (k₀, v₀) :: rest => by
    rw [List.filter_cons]
    by_cases hk : k₀ ∈ seen
    · rw [if_pos (by simpa using hk)]
      simp only [assocFind]
      by_cases hq : k₀ = k
      · rw [if_pos hq, if_pos hq]
      · rw [if_neg hq, if_neg hq]
        exact assocFind_filter_mem h rest
    · rw [if_neg (by simpa using hk)]
      simp only [assocFind]
      have hq : k₀ ≠ k := fun he => hk (he ▸ h)
      rw [if_neg hq]
      exact assocFind_filter_mem h rest

/-! ## `check_file_synced` and `sync_file` characterizations -/

theorem check_file_synced_none {obj : RemoteObj} {info : LocalInfo} {d : Dir}
    (stats : Stats) (h : assocFind (finalNameOf info) d = none) :
    check_file_synced obj info d stats = (false, stats) := by
  simp only [check_file_synced]
  rw [show info.archive_file_name.getD info.file_name = finalNameOf info from rfl, h]

theorem check_file_synced_hit {obj : RemoteObj} {info : LocalInfo} {d : Dir}
    {e : FSNode} (stats : Stats) (h : assocFind (finalNameOf info) d = some e)
    (hm : e.mtime = obj.modified_date) :
    check_file_synced obj info d stats =
      (true, {stats with skipped_file_count := stats.skipped_file_count + 1}) := by
  simp only [check_file_synced]
  rw [show info.archive_file_name.getD info.file_name = finalNameOf info from rfl, h]
  simp [hm]

theorem check_file_synced_miss {obj : RemoteObj} {info : LocalInfo} {d : Dir}
    {e : FSNode} (stats : Stats) (h : assocFind (finalNameOf info) d = some e)
    (hm : e.mtime ≠ obj.modified_date) :
    check_file_synced obj info d stats = (false, stats) := by
  simp only [check_file_synced]
  rw [show info.archive_file_name.getD info.file_name = finalNameOf info from rfl, h]
  simp [hm]

theorem check_file_synced_true_iff {obj : RemoteObj} {info : LocalInfo} {d : Dir}
    {stats : Stats} :
    (check_file_synced obj info d stats).1 = true ↔
      ∃ e, assocFind (finalNameOf info) d = some e ∧
        e.mtime = obj.modified_date := by
  cases hf : assocFind (finalNameOf info) d with
  | none =>
    rw [check_file_synced_none stats hf]
    simp [hf]
  | some e =>
    by_cases hm : e.mtime = obj.modified_date
    · rw [check_file_synced_hit stats hf hm]
      exact iff_of_true rfl ⟨e, rfl, hm⟩
    · rw [check_file_synced_miss stats hf hm]
      simp only [Bool.false_eq_true, false_iff]
      rintro ⟨e', he', hm'⟩
      injection he' with he'
      exact hm (he' ▸ hm')

theorem sync_file_skip {archive : Bool} {obj : RemoteObj} {info : LocalInfo}
    {d : Dir} {e : FSNode} (stats : Stats)
    (hf : assocFind (finalNameOf info) d = some e)
    (hm : e.mtime = obj.modified_date) :
    sync_file archive obj info d stats =
      some (d, {stats with skipped_file_count := stats.skipped_file_count + 1}) := by
  unfold sync_file
  rw [check_file_synced_hit stats hf hm]

theorem isDirAt_congr {k : String} {d₁ d₂ : Dir}
    (h : assocFind k d₁ = assocFind k d₂) : isDirAt k d₁ = isDirAt k d₂ := by
  unfold isDirAt
  rw [h]

theorem download_file_false_eq {obj : RemoteObj} {info : LocalInfo} {d : Dir}
    (stats : Stats) (hnd : isDirAt info.file_name d = false) :
    download_file false obj info d stats =
      some (info.file_name,
        childInsert info.file_name (FSNode.file freshMtime (obj.file_size.getD 0)) d,
        {stats with synced_file_count := stats.synced_file_count + 1}) := by
  simp [download_file, hnd]

theorem download_file_true_eq {obj : RemoteObj} {info : LocalInfo} {d : Dir}
    (stats : Stats) (hnd : isDirAt info.file_name d = false)
    (hzd : isDirAt (info.file_name ++ ".zip") d = false) :
    download_file true obj info d stats =
      some (info.file_name ++ ".zip",
        childErase info.file_name
          (childInsert (info.file_name ++ ".zip")
            (FSNode.file freshMtime (obj.file_size.getD 0))
            (childInsert info.file_name
              (FSNode.file freshMtime (obj.file_size.getD 0)) d)),
        {stats with synced_file_count := stats.synced_file_count + 1}) := by
  have hz₁ : isDirAt (info.file_name ++ ".zip")
      (childInsert info.file_name (FSNode.file freshMtime (obj.file_size.getD 0)) d)
      = false :=
    (isDirAt_congr (assocFind_childInsert_ne (str_append_zip_ne info.file_name) _ d)).trans hzd
  simp [download_file, hnd, hz₁]

theorem download_file_stats {archive : Bool} {obj : RemoteObj} {info : LocalInfo}
    {d : Dir} {stats : Stats} {nm : String} {d₁ : Dir} {s₁ : Stats}
    (h : download_file archive obj info d stats = some (nm, d₁, s₁)) :
    s₁ = {stats with synced_file_count := stats.synced_file_count + 1} := by
  simp only [download_file] at h
  split at h
  · cases h
  · split at h
    · split at h
      · cases h
      · injection h with h
        injection h with _ h
        injection h with _ h
        exact h.symm
    · injection h with h
      injection h with _ h
      injection h with _ h
      exact h.symm

/-- Characterization of a successful non-skipped `sync_file`: the synced-file
counter is bumped, a fresh file with the remote modification timestamp and the
remote size sits at the archive-aware final name, and no other name changes
except possibly the plain download name. -/
theorem sync_file_download {archive : Bool} {obj : RemoteObj} {info : LocalInfo}
    {d d' : Dir} {stats s' : Stats}
    (harc : info.archive_file_name =
      (if archive then some (info.file_name ++ ".zip") else none))
    (hns : ∀ e, assocFind (finalNameOf info) d = some e →
      e.mtime ≠ obj.modified_date)
    (h : sync_file archive obj info d stats = some (d', s')) :
    s' = {stats with synced_file_count := stats.synced_file_count + 1}
    ∧ assocFind (finalNameOf info) d' =
        some (FSNode.file obj.modified_date (obj.file_size.getD 0))
    ∧ ∀ k, k ≠ info.file_name → k ≠ finalNameOf info →
        assocFind k d' = assocFind k d := by
  have hcheck : check_file_synced obj info d stats = (false, stats) := by
    cases hf : assocFind (finalNameOf info) d with
    | none => exact check_file_synced_none stats hf
    | some e => exact check_file_synced_miss stats hf (hns e hf)
  unfold sync_file at h
  simp only [hcheck] at h
  cases archive with
  | false =>
    have hfin : finalNameOf info = info.file_name := by
      simp [finalNameOf, harc]
    cases hnd : isDirAt info.file_name d with
    | true =>
      simp only [show download_file false obj info d stats = none by
        simp [download_file, hnd]] at h
      cases h
    | false =>
      simp only [download_file_false_eq stats hnd,
        assocFind_childInsert_self, FSNode.setMtime] at h
      obtain ⟨rfl, rfl⟩ := h
      refine ⟨rfl, ?_, ?_⟩
      · rw [hfin, assocFind_childInsert_self]
      · intro k hk _
        rw [assocFind_childInsert_ne hk, assocFind_childInsert_ne hk]
  | true =>
    have hfin : finalNameOf info = info.file_name ++ ".zip" := by
      simp [finalNameOf, harc]
    cases hnd : isDirAt info.file_name d with
    | true =>
      simp only [show download_file true obj info d stats = none by
        simp [download_file, hnd]] at h
      cases h
    | false =>
      cases hzd : isDirAt (info.file_name ++ ".zip") d with
      | true =>
        simp only [show download_file true obj info d stats = none by
          have hz₁ : isDirAt (info.file_name ++ ".zip")
              (childInsert info.file_name
                (FSNode.file freshMtime (obj.file_size.getD 0)) d) = true :=
            (isDirAt_congr (assocFind_childInsert_ne
              (str_append_zip_ne info.file_name) _ d)).trans hzd
          simp [download_file, hnd, hz₁]] at h
        cases h
      | false =>
        simp only [download_file_true_eq stats hnd hzd,
          assocFind_childErase_ne (str_append_zip_ne info.file_name),
          assocFind_childInsert_self, FSNode.setMtime] at h
        obtain ⟨rfl, rfl⟩ := h
        refine ⟨rfl, ?_, ?_⟩
        · rw [hfin, assocFind_childInsert_self]
        · intro k hk hkz
          rw [hfin] at hkz
          rw [assocFind_childInsert_ne hkz, assocFind_childErase_ne hk,
            assocFind_childInsert_ne hkz, assocFind_childInsert_ne hk]

theorem sync_file_stats {archive : Bool} {obj : RemoteObj} {info : LocalInfo}
    {d d' : Dir} {stats s' : Stats}
    (h : sync_file archive obj info d stats = some (d', s')) :
    s' = {stats with skipped_file_count := stats.skipped_file_count + 1}
    ∨ s' = {stats with synced_file_count := stats.synced_file_count + 1} := by
  unfold sync_file at h
  cases hc : check_file_synced obj info d stats with
  | mk b stats₁ =>
    rw [hc] at h
    cases b
    · simp only at h
      cases hdl : download_file archive obj info d stats₁ with
      | none =>
        rw [hdl] at h
        cases h
      | some out =>
        obtain ⟨nm, d₂, s₂⟩ := out
        rw [hdl] at h
        simp only at h
        cases hfind : assocFind nm d₂ with
        | none =>
          rw [hfind] at h
          cases h
        | some e =>
          rw [hfind] at h
          injection h with h
          injection h with _ h₂
          right
          rw [← h₂]
          have hst := download_file_stats hdl
      -- stats₁ from the failed check equals stats
          have : stats₁ = stats := by
            cases hf : assocFind (finalNameOf info) d with
            | none =>
              have := @check_file_synced_none obj info d stats hf
              rw [this] at hc
              injection hc with _ h
              exact h.symm
            | some e' =>
              by_cases hm : e'.mtime = obj.modified_date
              · have := @check_file_synced_hit obj info d e' stats hf hm
                rw [this] at hc
                injection hc with hb _
                cases hb
              · have := @check_file_synced_miss obj info d e' stats hf hm
                rw [this] at hc
                injection hc with _ h
                exact h.symm
          rw [hst, this]
    · simp only at h
      injection h with h
      injection h with _ h₂
      left
      rw [← h₂]
      cases hf : assocFind (finalNameOf info) d with
      | none =>
        have := @check_file_synced_none obj info d stats hf
        rw [this] at hc
        injection hc with hb _
        cases hb
      | some e' =>
        by_cases hm : e'.mtime = obj.modified_date
        · have := @check_file_synced_hit obj info d e' stats hf hm
          rw [this] at hc
          injection hc with _ h
          rw [h]
        · have := @check_file_synced_miss obj info d e' stats hf hm
          rw [this] at hc
          injection hc with hb _
          cases hb

/-! ## `delete_removed_files` characterization -/

/-- Add to the deleted-entry counters. -/
def addDeleted (s : Stats) (n m : Nat) : Stats :=
  {s with deleted_file_count := s.deleted_file_count + n,
          deleted_file_size := s.deleted_file_size + m}

def fileSize : FSNode → Nat
  | .file _ sz => sz
  | .dir _ _ => 0

def isFileB : FSNode → Bool
  | .file _ _ => true
  | .dir _ _ => false

/-- The file entries (not directories) a deletion pass removes: name not seen. -/
def removedFiles (seen : List String) (d : Dir) : Dir :=
  d.filter (fun e => !(decide (e.1 ∈ seen)) && isFileB e.2)

theorem delete_removed_files_spec (seen : List String) : ∀ (d : Dir) (stats : Stats),
    delete_removed_files seen d stats =
      (d.filter (fun e => decide (e.1 ∈ seen)),
       addDeleted stats (removedFiles seen d).length
         ((removedFiles seen d).map (fun e => fileSize e.2)).sum)
  | [], stats => by
    simp only [delete_removed_files, List.filter_nil, removedFiles]
    cases stats
    simp [addDeleted]
  | (name, FSNode.dir m c) :: rest, stats => by
    simp only [delete_removed_files]
    by_cases hmem : name ∈ seen
    · rw [if_pos hmem, delete_removed_files_spec seen rest stats]
      simp [removedFiles, List.filter_cons, hmem, isFileB]
    · rw [if_neg hmem, delete_removed_files_spec seen rest stats]
      simp [removedFiles, List.filter_cons, hmem, isFileB]
  | (name, FSNode.file m sz) :: rest, stats => by
    simp only [delete_removed_files]
    by_cases hmem : name ∈ seen
    · rw [if_pos hmem, delete_removed_files_spec seen rest stats]
      simp [removedFiles, List.filter_cons, hmem, isFileB]
    · rw [if_neg hmem, delete_removed_files_spec seen rest _]
      simp only [removedFiles, List.filter_cons, hmem, isFileB, fileSize,
        decide_False, Bool.not_false, Bool.and_self, if_true, List.length_cons,
        List.map_cons, List.sum_cons, decide_True, Prod.mk.injEq]
      constructor
      · simp [hmem]
      · cases stats
        simp only [addDeleted, Stats.mk.injEq, true_and]
        omega

theorem delete_removed_files_all_seen {seen : List String} :
    ∀ (d : Dir) (stats : Stats), (∀ e ∈ d, e.1 ∈ seen) →
      delete_removed_files seen d stats = (d, stats)
  | [], stats, _ => rfl
  | (name, FSNode.dir m c) :: rest, stats, hall => by
    simp only [delete_removed_files]
    rw [if_pos (hall (name, FSNode.dir m c) (List.mem_cons_self _ _)),
      delete_removed_files_all_seen rest stats
        (fun x hx => hall x (List.mem_cons_of_mem _ hx))]
  | (name, FSNode.file m sz) :: rest, stats, hall => by
    simp only [delete_removed_files]
    rw [if_pos (hall (name, FSNode.file m sz) (List.mem_cons_self _ _)),
      delete_removed_files_all_seen rest stats
        (fun x hx => hall x (List.mem_cons_of_mem _ hx))]

/-! ## Claim C2 -/

/-- Remote timestamp 5.5 s: same whole second as a 5.0 s local mtime. -/
def objSub : RemoteObj := ⟨"f", "f", "text/plain", some 1, ⟨5, 500⟩, []⟩

def infoSub : LocalInfo := ⟨none, "f", none⟩

def dSub : Dir := [("f", FSNode.file ⟨5, 0⟩ 1)]

/-- C2 counterexample: a local entry exists at the resolved path and its
modification time equals the remote one at whole-second granularity, yet the
code reports not-synced (and leaves the skipped counter untouched): the
comparison is full-precision equality, not equality of seconds. -/
theorem check_file_synced_subsecond_cex :
    (check_file_synced objSub infoSub dSub {}).1 = false
    ∧ (check_file_synced objSub infoSub dSub {}).2.skipped_file_count = 0
    ∧ assocFind (finalNameOf infoSub) dSub = some (FSNode.file ⟨5, 0⟩ 1)
    ∧ (FSNode.file ⟨5, 0⟩ 1).mtime.sec = objSub.modified_date.sec
    ∧ (FSNode.file ⟨5, 0⟩ 1).mtime ≠ objSub.modified_date :=
  ⟨rfl, rfl, rfl, rfl, by decide⟩

/-- C2 amended: a file is treated as synced iff a local entry exists at the
resolved archive-aware path and its modification timestamp equals the remote
modification timestamp exactly — full-precision equality of the timestamp
values, not merely equality of whole seconds, and not a newer-than comparison;
when synced the skipped-file counter is incremented by one and no download
occurs (the directory is returned unchanged), and a failed check leaves the
counters untouched. -/
theorem check_file_synced_iff_exact_timestamp (archive : Bool) (obj : RemoteObj)
    (info : LocalInfo) (d : Dir) (stats : Stats) :
    ((check_file_synced obj info d stats).1 = true ↔
      ∃ e, assocFind (finalNameOf info) d = some e ∧ e.mtime = obj.modified_date)
    ∧ ((check_file_synced obj info d stats).1 = true →
        (check_file_synced obj info d stats).2 =
            {stats with skipped_file_count := stats.skipped_file_count + 1}
          ∧ sync_file archive obj info d stats = some (d,
              {stats with skipped_file_count := stats.skipped_file_count + 1}))
    ∧ ((check_file_synced obj info d stats).1 = false →
        (check_file_synced obj info d stats).2 = stats) := by
  refine ⟨check_file_synced_true_iff, ?_, ?_⟩
  · intro htrue
    obtain ⟨e, hf, hm⟩ := check_file_synced_true_iff.mp htrue
    rw [check_file_synced_hit stats hf hm]
    exact ⟨rfl, sync_file_skip stats hf hm⟩
  · intro hfalse
    cases hf : assocFind (finalNameOf info) d with
    | none => rw [check_file_synced_none stats hf]
    | some e =>
      by_cases hm : e.mtime = obj.modified_date
      · rw [check_file_synced_hit stats hf hm] at hfalse
        cases hfalse
      · rw [check_file_synced_miss stats hf hm]

/-- Witness for the amended C2 at a concrete synced file. -/
theorem check_file_synced_iff_exact_timestamp_witness :
    (check_file_synced objSub infoSub [("f", FSNode.file ⟨5, 500⟩ 1)] {}).1 = true
    ∧ sync_file false objSub infoSub [("f", FSNode.file ⟨5, 500⟩ 1)] {} =
        some ([("f", FSNode.file ⟨5, 500⟩ 1)],
          {skipped_file_count := 1}) := by
  have h := (check_file_synced_iff_exact_timestamp false objSub infoSub
    [("f", FSNode.file ⟨5, 500⟩ 1)] {}).1.mpr ⟨FSNode.file ⟨5, 500⟩ 1, rfl, rfl⟩
  refine ⟨h, ?_⟩
  have h2 := (check_file_synced_iff_exact_timestamp false objSub infoSub
    [("f", FSNode.file ⟨5, 500⟩ 1)] {}).2.1 h
  exact h2.2

/-! ## Claim C3 -/

/-- C3 counterexample: an unseen directory entry (even one containing files) is
removed without any change to the deleted-file counters, contradicting the
claim that every deleted entry increments the deleted-file counter. -/
theorem delete_removed_files_dir_counter_cex :
    (delete_removed_files [] [("old", FSNode.dir ⟨0, 0⟩
        [("g", FSNode.file ⟨1, 0⟩ 3)])] {}).1 = []
    ∧ (delete_removed_files [] [("old", FSNode.dir ⟨0, 0⟩
        [("g", FSNode.file ⟨1, 0⟩ 3)])] {}).2.deleted_file_count = 0
    ∧ (delete_removed_files [] [("old", FSNode.dir ⟨0, 0⟩
        [("g", FSNode.file ⟨1, 0⟩ 3)])] {}).2.deleted_file_size = 0 :=
  ⟨rfl, rfl, rfl⟩

/-- C3 amended: a deletion pass keeps exactly the entries whose names were seen
this run; unlisted files are unlinked with the deleted-file counter incremented
and the deleted-byte counter increased by the file's size, while unlisted
directories are recursively removed with no counter change.  A name recorded in
the seen set survives the pass with its entry untouched, and a file present
remotely but with a mismatched timestamp is re-downloaded in place: the synced
counter is bumped and the final name carries a fresh file stamped with the
remote timestamp. -/
theorem delete_removed_files_spec_and_redownload :
    (∀ (seen : List String) (d : Dir) (stats : Stats),
      delete_removed_files seen d stats =
        (d.filter (fun e => decide (e.1 ∈ seen)),
         addDeleted stats (removedFiles seen d).length
           ((removedFiles seen d).map (fun e => fileSize e.2)).sum))
    ∧ (∀ (seen : List String) (d : Dir) (stats : Stats) (k : String), k ∈ seen →
        assocFind k (delete_removed_files seen d stats).1 = assocFind k d)
    ∧ (∀ (archive : Bool) (obj : RemoteObj) (info : LocalInfo) (d : Dir)
        (stats : Stats) (e : FSNode) (d' : Dir) (s' : Stats),
        info.archive_file_name =
          (if archive then some (info.file_name ++ ".zip") else none) →
        assocFind (finalNameOf info) d = some e →
        e.mtime ≠ obj.modified_date →
        sync_file archive obj info d stats = some (d', s') →
        s'.synced_file_count = stats.synced_file_count + 1
        ∧ assocFind (finalNameOf info) d' =
            some (FSNode.file obj.modified_date (obj.file_size.getD 0))) := by
  refine ⟨delete_removed_files_spec, ?_, ?_⟩
  · intro seen d stats k hk
    rw [delete_removed_files_spec]
    exact assocFind_filter_mem hk d
  · intro archive obj info d stats e d' s' harc hf hm h
    have := sync_file_download harc
      (fun e' hf' => by
        rw [hf] at hf'
        injection hf' with hf'
        exact hf' ▸ hm) h
    exact ⟨by rw [this.1], this.2.1⟩

/-- Witness for the amended C3: a pass over one seen file, one unseen file and
one unseen directory, plus a concrete mismatched-timestamp re-download. -/
theorem delete_removed_files_spec_and_redownload_witness :
    delete_removed_files ["keep"] [("keep", FSNode.file ⟨1, 0⟩ 2),
        ("gone", FSNode.file ⟨2, 0⟩ 5), ("old", FSNode.dir ⟨0, 0⟩ [])] {} =
      ([("keep", FSNode.file ⟨1, 0⟩ 2)], addDeleted {} 1 5)
    ∧ (sync_file false objSub infoSub dSub {} = some
        ([("f", FSNode.file ⟨5, 500⟩ 1)], {synced_file_count := 1}) →
       assocFind (finalNameOf infoSub) [("f", FSNode.file ⟨5, 500⟩ 1)] =
         some (FSNode.file objSub.modified_date 1)) := by
  constructor
  · exact delete_removed_files_spec_and_redownload.1 ["keep"] _ {}
  · intro hsync
    have := delete_removed_files_spec_and_redownload.2.2 false objSub infoSub dSub
      {} (FSNode.file ⟨5, 0⟩ 1) [("f", FSNode.file ⟨5, 500⟩ 1)]
      {synced_file_count := 1} rfl rfl (by decide) hsync
    exact this.2

/-! ## Claim C10 -/

theorem buildTree_synced_size : ∀ (objs : List RemoteObj) (s : Stats) (t : Tree)
    (r : Option String) (s' : Stats) (t' : Tree) (r' : Option String),
    buildTree objs s t r = some (s', t', r') →
    s'.synced_file_size = s.synced_file_size
  | [], s, t, r, s', t', r', h => by
    simp only [buildTree, Option.some.injEq] at h
    obtain ⟨rfl, _, _⟩ := h
    rfl
  | obj :: rest, s, t, r, s', t', r', h => by
    rw [buildTree] at h
    cases hp : obj.parents with
    | nil =>
      rw [hp] at h
      exact buildTree_synced_size rest _ _ _ _ _ _ h
    | cons q qs =>
      cases qs with
      | nil =>
        rw [hp] at h
        simp only at h
        split at h
        · have ih := buildTree_synced_size rest _ _ _ _ _ _ h
          exact ih
        · have ih := buildTree_synced_size rest _ _ _ _ _ _ h
          exact ih
      | cons w ws =>
        rw [hp] at h
        cases h

theorem syncFiles_synced_size {archive : Bool} :
    ∀ (infos : List (RemoteObj × LocalInfo)) (d : Dir) (stats : Stats)
    (seen : List String) (out : Dir × Stats × List String),
    syncFiles archive infos d stats seen = some out →
    out.2.1.synced_file_size = stats.synced_file_size
  | [], d, stats, seen, out, h => by
    simp only [syncFiles, Option.some.injEq] at h
    rw [← h]
  | (obj, info) :: rest, d, stats, seen, out, h => by
    simp only [syncFiles] at h
    cases hsf : sync_file archive obj info d stats with
    | none => rw [hsf] at h; cases h
    | some r =>
      obtain ⟨d₁, s₁⟩ := r
      rw [hsf] at h
      have ih := syncFiles_synced_size rest d₁ s₁ _ out h
      rcases sync_file_stats hsf with hs | hs <;> rw [ih, hs]

theorem syncChildren_synced_size
    {recur : String → Dir → Stats → Option (String × Dir × Stats)}
    (hrec : ∀ cid d stats out, recur cid d stats = some out →
      out.2.2.synced_file_size = stats.synced_file_size) :
    ∀ (ids : List String) (d : Dir) (stats : Stats) (seen : List String)
    (out : Dir × Stats × List String),
    syncChildren recur ids d stats seen = some out →
    out.2.1.synced_file_size = stats.synced_file_size
  | [], d, stats, seen, out, h => by
    simp only [syncChildren, Option.some.injEq] at h
    rw [← h]
  | cid :: rest, d, stats, seen, out, h => by
    simp only [syncChildren] at h
    cases hr : recur cid d stats with
    | none => rw [hr] at h; cases h
    | some r =>
      obtain ⟨t₁, d₁, s₁⟩ := r
      rw [hr] at h
      have ih := syncChildren_synced_size hrec rest d₁ s₁ _ out h
      rw [ih, hrec cid d stats _ hr]

theorem syncBody_synced_size {archive : Bool} {tree : Tree}
    {recur : String → Dir → Stats → Option (String × Dir × Stats)}
    (hrec : ∀ cid d stats out, recur cid d stats = some out →
      out.2.2.synced_file_size = stats.synced_file_size)
    {folder_id : String} {c : Dir} {stats : Stats} {out : Dir × Stats}
    (h : syncBody archive tree recur folder_id c stats = some out) :
    out.2.synced_file_size = stats.synced_file_size := by
  simp only [syncBody] at h
  cases hsf : syncFiles archive
      (make_local_file_info archive (treeFind tree folder_id).files) c stats [] with
  | none => rw [hsf] at h; cases h
  | some r₁ =>
    obtain ⟨c₁, s₁, seen₁⟩ := r₁
    rw [hsf] at h
    simp only at h
    cases hsc : syncChildren recur (treeFind tree folder_id).folders c₁ s₁ seen₁ with
    | none => rw [hsc] at h; cases h
    | some r₂ =>
      obtain ⟨c₂, s₂, seen₂⟩ := r₂
      rw [hsc] at h
      simp only [Option.some.injEq] at h
      rw [← h]
      have h₁ := syncFiles_synced_size _ _ _ _ _ hsf
      have h₂ := syncChildren_synced_size hrec _ _ _ _ _ hsc
      rw [delete_removed_files_spec]
      simp only [addDeleted]
      rw [h₂, h₁]

theorem sync_folder_synced_size {archive : Bool} {tree : Tree} :
    ∀ (fuel : Nat) (folder_id : String) (d : Dir) (stats : Stats)
    (out : String × Dir × Stats),
    sync_folder archive tree fuel folder_id d stats = some out →
    out.2.2.synced_file_size = stats.synced_file_size
  | 0, _, _, _, _, h => by cases h
  | fuel + 1, folder_id, d, stats, out, h => by
    simp only [sync_folder] at h
    by_cases ht : (treeFind tree folder_id).title = ""
    · rw [if_pos ht] at h
      cases hb : syncBody archive tree (sync_folder archive tree fuel) folder_id
          d stats with
      | none => rw [hb] at h; cases h
      | some r =>
        obtain ⟨d₁, s₁⟩ := r
        rw [hb] at h
        simp only [Option.some.injEq] at h
        have hs := syncBody_synced_size (fun cid d' s' o ho =>
          sync_folder_synced_size fuel cid d' s' o ho) hb
        rw [← h]
        exact hs
    · rw [if_neg ht] at h
      cases hfind : assocFind (treeFind tree folder_id).title d with
      | none =>
        rw [hfind] at h
        simp only at h
        cases hb : syncBody archive tree (sync_folder archive tree fuel) folder_id
            [] stats with
        | none => rw [hb] at h; cases h
        | some r =>
          obtain ⟨c₁, s₁⟩ := r
          rw [hb] at h
          simp only [Option.some.injEq] at h
          have hs := syncBody_synced_size (fun cid d' s' o ho =>
            sync_folder_synced_size fuel cid d' s' o ho) hb
          rw [← h]
          exact hs
      | some e =>
        cases e with
        | file m sz =>
          rw [hfind] at h
          cases h
        | dir m c =>
          rw [hfind] at h
          simp only at h
          cases hb : syncBody archive tree (sync_folder archive tree fuel) folder_id
              c stats with
          | none => rw [hb] at h; cases h
          | some r =>
            obtain ⟨c₁, s₁⟩ := r
            rw [hb] at h
            simp only [Option.some.injEq] at h
            have hs := syncBody_synced_size (fun cid d' s' o ho =>
              sync_folder_synced_size fuel cid d' s' o ho) hb
            rw [← h]
            exact hs

/-- C10: nothing ever adds to `synced_file_size`: the tree build leaves it at 0
and any reconciliation run preserves it, even though each download increments
`synced_file_count` by one. -/
theorem synced_file_size_never_incremented :
    (∀ (objs : List RemoteObj) (s : Stats) (t : Tree) (r : Option String),
      get_tree objs = some (s, t, r) → s.synced_file_size = 0)
    ∧ (∀ (archive : Bool) (obj : RemoteObj) (info : LocalInfo) (d : Dir)
        (stats : Stats) (nm : String) (d₁ : Dir) (s₁ : Stats),
        download_file archive obj info d stats = some (nm, d₁, s₁) →
        s₁.synced_file_count = stats.synced_file_count + 1
        ∧ s₁.synced_file_size = stats.synced_file_size)
    ∧ (∀ (archive : Bool) (tree : Tree) (fuel : Nat) (folder_id : String)
        (d : Dir) (stats : Stats) (out : String × Dir × Stats),
        sync_folder archive tree fuel folder_id d stats = some out →
        out.2.2.synced_file_size = stats.synced_file_size) := by
  refine ⟨?_, ?_, ?_⟩
  · intro objs s t r h
    exact buildTree_synced_size objs {} [] none s t r h
  · intro archive obj info d stats nm d₁ s₁ h
    rw [download_file_stats h]
    exact ⟨rfl, rfl⟩
  · intro archive tree fuel folder_id d stats out h
    exact sync_folder_synced_size fuel folder_id d stats out h

/-- Witness for C10: a concrete build followed by a concrete run keeps
`synced_file_size` at 0 while `synced_file_count` grows. -/
theorem synced_file_size_never_incremented_witness :
    ∃ s t r, get_tree [⟨"f1", "a", "text/plain", some 5, ⟨3, 0⟩,
        [⟨"root", true⟩]⟩] = some (s, t, r) ∧ s.synced_file_size = 0 := by
  obtain ⟨out, hout⟩ : ∃ out, get_tree [⟨"f1", "a", "text/plain", some 5, ⟨3, 0⟩,
      [⟨"root", true⟩]⟩] = some out := ⟨_, rfl⟩
  obtain ⟨s, t, r⟩ := out
  exact ⟨s, t, r, hout, synced_file_size_never_incremented.1 _ s t r hout⟩

/-! ## Claim C1: counterexample -/

/-- The remote file used by the C1 scenarios. -/
def objG : RemoteObj := ⟨"g", "g", "text/plain", some 1, ⟨10, 0⟩, []⟩

/-- A hierarchy with two sibling folders that share the title `t`; the second
one holds the file `g`.  Both map onto the same local directory. -/
def trC1 : Tree :=
  [("r", ⟨"", ["a", "b"], []⟩), ("a", ⟨"t", [], []⟩), ("b", ⟨"t", [], [objG]⟩)]

/-- C1 counterexample: the first run over `trC1` completes successfully,
downloading `g` and stamping it with the remote timestamp; nothing changes
between the runs (the second run starts exactly from the first run's output
state), yet the second run downloads one file again (the empty sibling deletes
`g` from the shared directory before its owner re-checks it), deletes one file,
and skips none — not zero downloads and zero deletions. -/
theorem reconciler_second_run_cex :
    sync_folder false trC1 3 "r" [] {} =
      some ("", [("t", FSNode.dir ⟨0, 0⟩ [("g", FSNode.file ⟨10, 0⟩ 1)])],
        {synced_file_count := 1})
    ∧ sync_folder false trC1 3 "r"
        [("t", FSNode.dir ⟨0, 0⟩ [("g", FSNode.file ⟨10, 0⟩ 1)])]
        {synced_file_count := 1} =
      some ("", [("t", FSNode.dir ⟨0, 0⟩ [("g", FSNode.file ⟨10, 0⟩ 1)])],
        {synced_file_count := 2, skipped_file_count := 0,
         deleted_file_count := 1, deleted_file_size := 1}) :=
  ⟨rfl, rfl⟩

/-! ## Claim C1: infrastructure for the amended statement -/

/-- Add to the skipped-file counter. -/
def addSkipped (s : Stats) (n : Nat) : Stats :=
  {s with skipped_file_count := s.skipped_file_count + n}

theorem addSkipped_addSkipped (s : Stats) (n m : Nat) :
    addSkipped (addSkipped s n) m = addSkipped s (n + m) := by
  cases s
  simp [addSkipped, Nat.add_assoc]

theorem childInsert_self {k : String} {v : FSNode} :
    ∀ {d : Dir}, assocFind k d = some v → childInsert k v d = d
  | [], h => by cases h
  | (k₀, v₀) :: rest, h => by
    simp only [assocFind] at h
    simp only [childInsert]
    by_cases he : k₀ = k
    · subst he
      rw [if_pos rfl] at h
      injection h with h
      rw [if_pos rfl, h]
    · rw [if_neg he] at h
      rw [if_neg he, childInsert_self h]

theorem assignNames_length (archive : Bool) : ∀ (files : List RemoteObj)
    (seen : List String), (assignNames archive files seen).length = files.length
  | [], _ => rfl
  | _ :: rest, seen => by
    simp only [assignNames, List.length_cons]
    rw [assignNames_length archive rest]

theorem make_local_file_info_length (archive : Bool) (files : List RemoteObj) :
    (make_local_file_info archive files).length = files.length := by
  unfold make_local_file_info
  rw [assignNames_length]
  exact (List.perm_insertionSort keyLe files).length_eq

/-- A successful `sync_folder` call returns the folder node's title. -/
theorem sync_folder_title {archive : Bool} {tree : Tree} :
    ∀ {fuel : Nat} {folder_id : String} {d : Dir} {stats : Stats} {t : String}
    {d' : Dir} {s' : Stats},
    sync_folder archive tree fuel folder_id d stats = some (t, d', s') →
    t = (treeFind tree folder_id).title := by
  intro fuel folder_id d stats t d' s' h
  cases fuel with
  | zero => cases h
  | succ fuel =>
    simp only [sync_folder] at h
    by_cases ht : (treeFind tree folder_id).title = ""
    · rw [if_pos ht] at h
      cases hb : syncBody archive tree (sync_folder archive tree fuel) folder_id
          d stats with
      | none => rw [hb] at h; cases h
      | some r =>
        rw [hb] at h
        obtain ⟨d₁, s₁⟩ := r
        simp only [Option.some.injEq, Prod.mk.injEq] at h
        exact h.1.symm
    · rw [if_neg ht] at h
      cases hfind : assocFind (treeFind tree folder_id).title d with
      | none =>
        rw [hfind] at h
        simp only at h
        cases hb : syncBody archive tree (sync_folder archive tree fuel) folder_id
            [] stats with
        | none => rw [hb] at h; cases h
        | some r =>
          rw [hb] at h
          obtain ⟨c₁, s₁⟩ := r
          simp only [Option.some.injEq, Prod.mk.injEq] at h
          exact h.1.symm
      | some e =>
        cases e with
        | file m sz => rw [hfind] at h; cases h
        | dir m c =>
          rw [hfind] at h
          simp only at h
          cases hb : syncBody archive tree (sync_folder archive tree fuel) folder_id
              c stats with
          | none => rw [hb] at h; cases h
          | some r =>
            rw [hb] at h
            obtain ⟨c₁, s₁⟩ := r
            simp only [Option.some.injEq, Prod.mk.injEq] at h
            exact h.1.symm

/-- Pairwise non-interference of resolved names within one folder: no file's
plain (pre-archive) write path equals another file's final on-disk name.  When
archiving is off this is just the resolver's pairwise distinctness; with
archiving it additionally rules out a title of the shape `x.zip` colliding with
the archive of a file titled `x`. -/
def pairwiseOkB : List (RemoteObj × LocalInfo) → Bool
  | [] => true
  | (_, i) :: rest =>
    rest.all (fun p => decide (i.file_name ≠ finalNameOf p.2)
      && decide (p.2.file_name ≠ finalNameOf i)) && pairwiseOkB rest

/-- Sufficient conditions on the reachable part of the hierarchy (within fuel)
for a second reconciliation run to be a no-op: every child folder carries a
nonempty title, sibling folder titles are pairwise distinct (so no two folders
share a local directory), and resolved file names do not interfere. -/
def good (archive : Bool) (tree : Tree) : Nat → String → Bool
  | 0, _ => true
  | fuel + 1, folder_id =>
    pairwiseOkB (make_local_file_info archive (treeFind tree folder_id).files)
    && (treeFind tree folder_id).folders.all
        (fun cid => decide ((treeFind tree cid).title ≠ ""))
    && decide ((treeFind tree folder_id).folders.map
        (fun cid => (treeFind tree cid).title)).Nodup
    && (treeFind tree folder_id).folders.all (fun cid => good archive tree fuel cid)

/-- The state a successful run leaves a folder's own directory in: every
resolved file name carries an entry stamped with its remote timestamp, every
child folder title carries a directory in the same recursively-synced state,
and nothing else remains. -/
def PostF (archive : Bool) (tree : Tree) : Nat → String → Dir → Prop
  | 0, _, _ => False
  | fuel + 1, folder_id, c =>
    (∀ p ∈ make_local_file_info archive (treeFind tree folder_id).files,
      ∃ e, assocFind (finalNameOf p.2) c = some e ∧ e.mtime = p.1.modified_date)
    ∧ (∀ cid ∈ (treeFind tree folder_id).folders, ∃ m cc,
        assocFind (treeFind tree cid).title c = some (FSNode.dir m cc)
        ∧ PostF archive tree fuel cid cc)
    ∧ (∀ e ∈ c,
        e.1 ∈ (make_local_file_info archive (treeFind tree folder_id).files).map
          (fun p => finalNameOf p.2)
        ∨ e.1 ∈ (treeFind tree folder_id).folders.map
            (fun cid => (treeFind tree cid).title))

theorem pairwiseOkB_cons_iff {p : RemoteObj × LocalInfo}
    {rest : List (RemoteObj × LocalInfo)} :
    pairwiseOkB (p :: rest) = true ↔
      (∀ q ∈ rest, p.2.file_name ≠ finalNameOf q.2
        ∧ q.2.file_name ≠ finalNameOf p.2)
      ∧ pairwiseOkB rest = true := by
  obtain ⟨o, i⟩ := p
  simp [pairwiseOkB, List.all_eq_true, Bool.and_eq_true, decide_eq_true_eq,
    forall_and]

theorem good_succ_iff {archive : Bool} {tree : Tree} {fuel : Nat}
    {folder_id : String} :
    good archive tree (fuel + 1) folder_id = true ↔
      pairwiseOkB (make_local_file_info archive
        (treeFind tree folder_id).files) = true
      ∧ (∀ cid ∈ (treeFind tree folder_id).folders, (treeFind tree cid).title ≠ "")
      ∧ ((treeFind tree folder_id).folders.map
          (fun cid => (treeFind tree cid).title)).Nodup
      ∧ ∀ cid ∈ (treeFind tree folder_id).folders,
          good archive tree fuel cid = true := by
  simp [good, List.all_eq_true, Bool.and_eq_true, decide_eq_true_eq, and_assoc]

/-! ## Claim C1: a second run over a synced directory only skips -/

theorem syncFiles_skip_all {archive : Bool} :
    ∀ (infos : List (RemoteObj × LocalInfo)) (d : Dir) (stats : Stats)
    (seen : List String),
    (∀ p ∈ infos, ∃ e, assocFind (finalNameOf p.2) d = some e
      ∧ e.mtime = p.1.modified_date) →
    syncFiles archive infos d stats seen =
      some (d, addSkipped stats infos.length,
        seen ++ infos.map (fun p => finalNameOf p.2))
  | [], d, stats, seen, _ => by
    simp only [syncFiles, List.map_nil, List.append_nil, List.length_nil]
    cases stats
    simp [addSkipped]
  | (obj, info) :: rest, d, stats, seen, hall => by
    obtain ⟨e, hf, hm⟩ := hall (obj, info) (List.mem_cons_self _ _)
    simp only [syncFiles, sync_file_skip stats hf hm]
    rw [syncFiles_skip_all rest d _ _
      (fun p hp => hall p (List.mem_cons_of_mem _ hp))]
    have hstats : addSkipped
        {stats with skipped_file_count := stats.skipped_file_count + 1}
        rest.length = addSkipped stats ((obj, info) :: rest).length := by
      rw [show ({stats with skipped_file_count := stats.skipped_file_count + 1}
        : Stats) = addSkipped stats 1 from rfl, addSkipped_addSkipped,
        List.length_cons, Nat.add_comm]
    have hseen : (seen ++ [finalNameOf info]) ++
        rest.map (fun p => finalNameOf p.2) =
        seen ++ ((obj, info) :: rest).map (fun p => finalNameOf p.2) := by
      simp
    rw [hstats, hseen]

theorem syncChildren_idem {archive : Bool} {tree : Tree}
    {recur : String → Dir → Stats → Option (String × Dir × Stats)} {fuel : Nat}
    (hrec : ∀ cid d stats m cc, good archive tree fuel cid = true →
      (treeFind tree cid).title ≠ "" →
      assocFind (treeFind tree cid).title d = some (FSNode.dir m cc) →
      PostF archive tree fuel cid cc →
      recur cid d stats = some ((treeFind tree cid).title, d,
        addSkipped stats (countFiles tree fuel cid))) :
    ∀ (ids : List String) (d : Dir) (stats : Stats) (seen : List String),
    (∀ cid ∈ ids, good archive tree fuel cid = true) →
    (∀ cid ∈ ids, (treeFind tree cid).title ≠ "") →
    (∀ cid ∈ ids, ∃ m cc,
      assocFind (treeFind tree cid).title d = some (FSNode.dir m cc)
      ∧ PostF archive tree fuel cid cc) →
    syncChildren recur ids d stats seen =
      some (d, addSkipped stats ((ids.map (countFiles tree fuel)).sum),
        seen ++ ids.map (fun cid => (treeFind tree cid).title))
  | [], d, stats, seen, _, _, _ => by
    simp only [syncChildren, List.map_nil, List.append_nil, List.sum_nil]
    cases stats
    simp [addSkipped]
  | cid :: rest, d, stats, seen, hg, ht, hpf => by
    obtain ⟨m, cc, hfind, hp⟩ := hpf cid (List.mem_cons_self _ _)
    simp only [syncChildren,
      hrec cid d stats m cc (hg cid (List.mem_cons_self _ _))
        (ht cid (List.mem_cons_self _ _)) hfind hp]
    rw [syncChildren_idem hrec rest d _ _
      (fun c hc => hg c (List.mem_cons_of_mem _ hc))
      (fun c hc => ht c (List.mem_cons_of_mem _ hc))
      (fun c hc => hpf c (List.mem_cons_of_mem _ hc))]
    have hstats : addSkipped (addSkipped stats (countFiles tree fuel cid))
        ((rest.map (countFiles tree fuel)).sum) =
        addSkipped stats (((cid :: rest).map (countFiles tree fuel)).sum) := by
      rw [addSkipped_addSkipped, List.map_cons, List.sum_cons]
    have hseen : (seen ++ [(treeFind tree cid).title]) ++
        rest.map (fun c => (treeFind tree c).title) =
        seen ++ (cid :: rest).map (fun c => (treeFind tree c).title) := by
      simp
    rw [hstats, hseen]

theorem syncBody_idem {archive : Bool} {tree : Tree}
    {recur : String → Dir → Stats → Option (String × Dir × Stats)} {fuel : Nat}
    (hrec : ∀ cid d stats m cc, good archive tree fuel cid = true →
      (treeFind tree cid).title ≠ "" →
      assocFind (treeFind tree cid).title d = some (FSNode.dir m cc) →
      PostF archive tree fuel cid cc →
      recur cid d stats = some ((treeFind tree cid).title, d,
        addSkipped stats (countFiles tree fuel cid)))
    {folder_id : String} {c : Dir} {stats : Stats}
    (hgood : good archive tree (fuel + 1) folder_id = true)
    (hpost : PostF archive tree (fuel + 1) folder_id c) :
    syncBody archive tree recur folder_id c stats =
      some (c, addSkipped stats (countFiles tree (fuel + 1) folder_id)) := by
  obtain ⟨hpw, htitles, hnodup, hgoods⟩ := good_succ_iff.mp hgood
  simp only [PostF] at hpost
  obtain ⟨hfiles, hkids, hcover⟩ := hpost
  simp only [syncBody, syncFiles_skip_all _ c stats [] hfiles,
    syncChildren_idem hrec _ c _ _ hgoods htitles hkids]
  rw [delete_removed_files_all_seen c _ (fun e he => by
    rcases hcover e he with h | h
    · simp only [List.nil_append]
      exact List.mem_append.mpr (Or.inl h)
    · simp only [List.nil_append]
      exact List.mem_append.mpr (Or.inr h))]
  rw [addSkipped_addSkipped]
  have : (make_local_file_info archive (treeFind tree folder_id).files).length +
      ((treeFind tree folder_id).folders.map (countFiles tree fuel)).sum =
      countFiles tree (fuel + 1) folder_id := by
    simp only [countFiles]
    rw [make_local_file_info_length]
  rw [this]

theorem sync_folder_idem {archive : Bool} {tree : Tree} :
    ∀ (fuel : Nat) (cid : String) (d : Dir) (stats : Stats) (m : Timestamp)
    (cc : Dir),
    good archive tree fuel cid = true →
    (treeFind tree cid).title ≠ "" →
    assocFind (treeFind tree cid).title d = some (FSNode.dir m cc) →
    PostF archive tree fuel cid cc →
    sync_folder archive tree fuel cid d stats =
      some ((treeFind tree cid).title, d,
        addSkipped stats (countFiles tree fuel cid))
  | 0, cid, d, stats, m, cc, _, _, _, hp => hp.elim
  | fuel + 1, cid, d, stats, m, cc, hg, ht, hfind, hp => by
    simp only [sync_folder, if_neg ht, hfind]
    simp only [syncBody_idem
      (fun cid' d' stats' m' cc' hg' ht' hf' hp' =>
        sync_folder_idem fuel cid' d' stats' m' cc' hg' ht' hf' hp')
      hg hp]
    rw [childInsert_self hfind]

/-! ## Claim C1: a successful run leaves the directory in the synced state -/

theorem make_local_file_info_arc {archive : Bool} {files : List RemoteObj}
    {p : RemoteObj × LocalInfo} (hp : p ∈ make_local_file_info archive files) :
    p.2.archive_file_name =
      (if archive then some (p.2.file_name ++ ".zip") else none) :=
  assignNames_archive_name archive _ [] p hp

theorem make_local_file_info_final_nodup (archive : Bool)
    (files : List RemoteObj) :
    ((make_local_file_info archive files).map (fun p => finalNameOf p.2)).Nodup :=
  assignNames_final_nodup archive _ []

theorem syncFiles_establishes {archive : Bool} :
    ∀ (infos : List (RemoteObj × LocalInfo)) (d : Dir) (stats : Stats)
    (seen : List String) (d₁ : Dir) (s₁ : Stats) (seen₁ : List String),
    pairwiseOkB infos = true →
    (infos.map (fun p => finalNameOf p.2)).Nodup →
    (∀ p ∈ infos, p.2.archive_file_name =
      (if archive then some (p.2.file_name ++ ".zip") else none)) →
    syncFiles archive infos d stats seen = some (d₁, s₁, seen₁) →
    (∀ p ∈ infos, ∃ e, assocFind (finalNameOf p.2) d₁ = some e
      ∧ e.mtime = p.1.modified_date)
    ∧ (∀ k, (∀ p ∈ infos, k ≠ p.2.file_name ∧ k ≠ finalNameOf p.2) →
        assocFind k d₁ = assocFind k d)
    ∧ seen₁ = seen ++ infos.map (fun p => finalNameOf p.2)
    ∧ s₁.synced_file_count + s₁.skipped_file_count =
        stats.synced_file_count + stats.skipped_file_count + infos.length
  | [], d, stats, seen, d₁, s₁, seen₁, _, _, _, h => by
    simp only [syncFiles, Option.some.injEq, Prod.mk.injEq] at h
    obtain ⟨rfl, rfl, rfl⟩ := h
    refine ⟨by simp, fun k _ => rfl, by simp, by simp⟩
  | (obj, info) :: rest, d, stats, seen, d₁, s₁, seen₁, hpw, hnd, hax, h => by
    obtain ⟨hpw1, hpwrest⟩ := pairwiseOkB_cons_iff.mp hpw
    simp only [List.map_cons, List.nodup_cons] at hnd
    obtain ⟨hfn, hndrest⟩ := hnd
    have hsep : ∀ p ∈ rest, finalNameOf info ≠ p.2.file_name
        ∧ finalNameOf info ≠ finalNameOf p.2 := by
      intro p hp
      refine ⟨Ne.symm (hpw1 p hp).2, ?_⟩
      intro he
      exact hfn (he ▸ List.mem_map_of_mem (fun q => finalNameOf q.2) hp)
    simp only [syncFiles] at h
    by_cases hsk : ∃ e, assocFind (finalNameOf info) d = some e
        ∧ e.mtime = obj.modified_date
    · obtain ⟨e, hf, hm⟩ := hsk
      simp only [sync_file_skip stats hf hm] at h
      have ih := syncFiles_establishes rest d _ _ _ _ _ hpwrest hndrest
        (fun p hp => hax p (List.mem_cons_of_mem _ hp)) h
      refine ⟨?_, ?_, ?_, ?_⟩
      · intro p hpmem
        rcases List.mem_cons.mp hpmem with rfl | hp
        · refine ⟨e, ?_, hm⟩
          rw [ih.2.1 (finalNameOf info) (fun q hq => hsep q hq)]
          exact hf
        · exact ih.1 p hp
      · intro k hk
        rw [ih.2.1 k (fun q hq => hk q (List.mem_cons_of_mem _ hq))]
      · rw [ih.2.2.1]
        simp
      · have := ih.2.2.2
        simp only at this
        simp only [List.length_cons]
        omega
    · have hns : ∀ e, assocFind (finalNameOf info) d = some e →
          e.mtime ≠ obj.modified_date := by
        intro e hf hm
        exact hsk ⟨e, hf, hm⟩
      cases hsf : sync_file archive obj info d stats with
      | none => rw [hsf] at h; cases h
      | some r =>
        obtain ⟨dmid, smid⟩ := r
        simp only [hsf] at h
        have hdl := sync_file_download (hax (obj, info) (List.mem_cons_self _ _))
          hns hsf
        have ih := syncFiles_establishes rest dmid _ _ _ _ _ hpwrest hndrest
          (fun p hp => hax p (List.mem_cons_of_mem _ hp)) h
        refine ⟨?_, ?_, ?_, ?_⟩
        · intro p hpmem
          rcases List.mem_cons.mp hpmem with rfl | hp
          · refine ⟨FSNode.file obj.modified_date (obj.file_size.getD 0), ?_, rfl⟩
            rw [ih.2.1 (finalNameOf info) (fun q hq => hsep q hq)]
            exact hdl.2.1
          · exact ih.1 p hp
        · intro k hk
          rw [ih.2.1 k (fun q hq => hk q (List.mem_cons_of_mem _ hq)),
            hdl.2.2 k (hk (obj, info) (List.mem_cons_self _ _)).1
              (hk (obj, info) (List.mem_cons_self _ _)).2]
        · rw [ih.2.2.1]
          simp
        · have hsum := ih.2.2.2
          rw [hdl.1] at hsum
          simp only at hsum
          simp only [List.length_cons]
          omega

theorem syncChildren_establishes {archive : Bool} {tree : Tree}
    {recur : String → Dir → Stats → Option (String × Dir × Stats)} {fuel : Nat}
    (hrecE : ∀ cid d stats t d' s', good archive tree fuel cid = true →
      (treeFind tree cid).title ≠ "" →
      recur cid d stats = some (t, d', s') →
      t = (treeFind tree cid).title
      ∧ (∃ m cc, assocFind (treeFind tree cid).title d' = some (FSNode.dir m cc)
          ∧ PostF archive tree fuel cid cc)
      ∧ (∀ k, k ≠ (treeFind tree cid).title → assocFind k d' = assocFind k d)
      ∧ (∀ e, assocFind (treeFind tree cid).title d = some e →
          ∃ e', assocFind (treeFind tree cid).title d' = some e'
            ∧ e'.mtime = e.mtime)
      ∧ s'.synced_file_count + s'.skipped_file_count =
          stats.synced_file_count + stats.skipped_file_count +
            countFiles tree fuel cid) :
    ∀ (ids : List String) (d : Dir) (stats : Stats) (seen : List String)
    (d₂ : Dir) (s₂ : Stats) (seen₂ : List String),
    (∀ cid ∈ ids, good archive tree fuel cid = true) →
    (∀ cid ∈ ids, (treeFind tree cid).title ≠ "") →
    (ids.map (fun cid => (treeFind tree cid).title)).Nodup →
    syncChildren recur ids d stats seen = some (d₂, s₂, seen₂) →
    (∀ cid ∈ ids, ∃ m cc, assocFind (treeFind tree cid).title d₂ =
        some (FSNode.dir m cc) ∧ PostF archive tree fuel cid cc)
    ∧ (∀ k, k ∉ ids.map (fun cid => (treeFind tree cid).title) →
        assocFind k d₂ = assocFind k d)
    ∧ (∀ k e, assocFind k d = some e →
        ∃ e', assocFind k d₂ = some e' ∧ e'.mtime = e.mtime)
    ∧ seen₂ = seen ++ ids.map (fun cid => (treeFind tree cid).title)
    ∧ s₂.synced_file_count + s₂.skipped_file_count =
        stats.synced_file_count + stats.skipped_file_count +
          (ids.map (countFiles tree fuel)).sum
  | [], d, stats, seen, d₂, s₂, seen₂, _, _, _, h => by
    simp only [syncChildren, Option.some.injEq, Prod.mk.injEq] at h
    obtain ⟨rfl, rfl, rfl⟩ := h
    refine ⟨by simp, fun k _ => rfl, fun k e he => ⟨e, he, rfl⟩, by simp, by simp⟩
  | cid :: rest, d, stats, seen, d₂, s₂, seen₂, hg, ht, hnd, h => by
    simp only [List.map_cons, List.nodup_cons] at hnd
    obtain ⟨htn, hndrest⟩ := hnd
    simp only [syncChildren] at h
    cases hr : recur cid d stats with
    | none => rw [hr] at h; cases h
    | some r =>
      obtain ⟨t, dmid, smid⟩ := r
      simp only [hr] at h
      have hE := hrecE cid d stats t dmid smid (hg cid (List.mem_cons_self _ _))
        (ht cid (List.mem_cons_self _ _)) hr
      obtain ⟨rfl, ⟨m, cc, hfind, hpf⟩, hframe, hpres, hsum⟩ := hE
      have hpresAll : ∀ k e, assocFind k d = some e →
          ∃ e', assocFind k dmid = some e' ∧ e'.mtime = e.mtime := by
        intro k e he
        by_cases hk : k = (treeFind tree cid).title
        · subst hk
          exact hpres e he
        · exact ⟨e, (hframe k hk).trans he, rfl⟩
      have ih := syncChildren_establishes hrecE rest dmid _ _ _ _ _
        (fun c hc => hg c (List.mem_cons_of_mem _ hc))
        (fun c hc => ht c (List.mem_cons_of_mem _ hc)) hndrest h
      refine ⟨?_, ?_, ?_, ?_, ?_⟩
      · intro c hcmem
        rcases List.mem_cons.mp hcmem with heq | hc
        · rw [heq]
          refine ⟨m, cc, ?_, hpf⟩
          rw [ih.2.1 (treeFind tree cid).title (fun hmem => htn hmem)]
          exact hfind
        · exact ih.1 c hc
      · intro k hk
        simp only [List.map_cons, List.mem_cons] at hk
        push_neg at hk
        rw [ih.2.1 k hk.2, hframe k hk.1]
      · intro k e he
        obtain ⟨e', he', hm'⟩ := hpresAll k e he
        obtain ⟨e'', he'', hm''⟩ := ih.2.2.1 k e' he'
        exact ⟨e'', he'', hm''.trans hm'⟩
      · rw [ih.2.2.2.1]
        simp
      · have := ih.2.2.2.2
        simp only [List.map_cons, List.sum_cons]
        omega

theorem syncBody_establishes {archive : Bool} {tree : Tree}
    {recur : String → Dir → Stats → Option (String × Dir × Stats)} {fuel : Nat}
    (hrecE : ∀ cid d stats t d' s', good archive tree fuel cid = true →
      (treeFind tree cid).title ≠ "" →
      recur cid d stats = some (t, d', s') →
      t = (treeFind tree cid).title
      ∧ (∃ m cc, assocFind (treeFind tree cid).title d' = some (FSNode.dir m cc)
          ∧ PostF archive tree fuel cid cc)
      ∧ (∀ k, k ≠ (treeFind tree cid).title → assocFind k d' = assocFind k d)
      ∧ (∀ e, assocFind (treeFind tree cid).title d = some e →
          ∃ e', assocFind (treeFind tree cid).title d' = some e'
            ∧ e'.mtime = e.mtime)
      ∧ s'.synced_file_count + s'.skipped_file_count =
          stats.synced_file_count + stats.skipped_file_count +
            countFiles tree fuel cid)
    {folder_id : String} {c : Dir} {stats : Stats} {c' : Dir} {s' : Stats}
    (hgood : good archive tree (fuel + 1) folder_id = true)
    (h : syncBody archive tree recur folder_id c stats = some (c', s')) :
    PostF archive tree (fuel + 1) folder_id c'
    ∧ s'.synced_file_count + s'.skipped_file_count =
        stats.synced_file_count + stats.skipped_file_count +
          countFiles tree (fuel + 1) folder_id := by
  obtain ⟨hpw, htitles, hnodup, hgoods⟩ := good_succ_iff.mp hgood
  simp only [syncBody] at h
  cases hsf : syncFiles archive
      (make_local_file_info archive (treeFind tree folder_id).files) c stats [] with
  | none => rw [hsf] at h; cases h
  | some r₁ =>
    obtain ⟨c₁, s₁, seen₁⟩ := r₁
    rw [hsf] at h
    simp only at h
    have hfilesE := syncFiles_establishes _ c stats [] c₁ s₁ seen₁ hpw
      (make_local_file_info_final_nodup archive _)
      (fun p hp => make_local_file_info_arc hp) hsf
    cases hsc : syncChildren recur (treeFind tree folder_id).folders c₁ s₁ seen₁ with
    | none => rw [hsc] at h; cases h
    | some r₂ =>
      obtain ⟨c₂, s₂, seen₂⟩ := r₂
      rw [hsc] at h
      simp only [Option.some.injEq] at h
      have hkidsE := syncChildren_establishes hrecE _ c₁ s₁ seen₁ c₂ s₂ seen₂
        hgoods htitles hnodup hsc
      have hseen₂ : seen₂ =
          (make_local_file_info archive (treeFind tree folder_id).files).map
            (fun p => finalNameOf p.2)
          ++ (treeFind tree folder_id).folders.map
              (fun cid => (treeFind tree cid).title) := by
        rw [hkidsE.2.2.2.1, hfilesE.2.2.1]
        simp
      rw [delete_removed_files_spec, Prod.mk.injEq] at h
      obtain ⟨hc', hs'⟩ := h
      constructor
      · simp only [PostF]
        refine ⟨?_, ?_, ?_⟩
        · intro p hp
          obtain ⟨e, he, hm⟩ := hfilesE.1 p hp
          obtain ⟨e', he', hm'⟩ := hkidsE.2.2.1 _ e he
          refine ⟨e', ?_, hm'.trans hm⟩
          rw [← hc', assocFind_filter_mem ?_ c₂]
          · exact he'
          · rw [hseen₂]
            exact List.mem_append.mpr (Or.inl
              (List.mem_map_of_mem (fun q => finalNameOf q.2) hp))
        · intro cid hcid
          obtain ⟨m, cc, hfind, hpf⟩ := hkidsE.1 cid hcid
          refine ⟨m, cc, ?_, hpf⟩
          rw [← hc', assocFind_filter_mem ?_ c₂]
          · exact hfind
          · rw [hseen₂]
            exact List.mem_append.mpr (Or.inr
              (List.mem_map_of_mem (fun q => (treeFind tree q).title) hcid))
        · intro e he
          rw [← hc'] at he
          have := List.mem_filter.mp he
          have hmem : e.1 ∈ seen₂ := by simpa using this.2
          rw [hseen₂] at hmem
          exact List.mem_append.mp hmem
      · have h₁ := hfilesE.2.2.2
        have h₂ := hkidsE.2.2.2.2
        rw [← hs']
        simp only [addDeleted, countFiles]
        rw [make_local_file_info_length] at h₁
        omega

theorem sync_folder_establishes {archive : Bool} {tree : Tree} :
    ∀ (fuel : Nat) (cid : String) (d : Dir) (stats : Stats) (t : String)
    (d' : Dir) (s' : Stats),
    good archive tree fuel cid = true →
    (treeFind tree cid).title ≠ "" →
    sync_folder archive tree fuel cid d stats = some (t, d', s') →
    t = (treeFind tree cid).title
    ∧ (∃ m cc, assocFind (treeFind tree cid).title d' = some (FSNode.dir m cc)
        ∧ PostF archive tree fuel cid cc)
    ∧ (∀ k, k ≠ (treeFind tree cid).title → assocFind k d' = assocFind k d)
    ∧ (∀ e, assocFind (treeFind tree cid).title d = some e →
        ∃ e', assocFind (treeFind tree cid).title d' = some e'
          ∧ e'.mtime = e.mtime)
    ∧ s'.synced_file_count + s'.skipped_file_count =
        stats.synced_file_count + stats.skipped_file_count +
          countFiles tree fuel cid
  | 0, cid, d, stats, t, d', s', _, _, h => by cases h
  | fuel + 1, cid, d, stats, t, d', s', hg, ht, h => by
    simp only [sync_folder, if_neg ht] at h
    cases hfind : assocFind (treeFind tree cid).title d with
    | none =>
      rw [hfind] at h
      simp only at h
      cases hb : syncBody archive tree (sync_folder archive tree fuel) cid
          [] stats with
      | none => rw [hb] at h; cases h
      | some r =>
        obtain ⟨c₁, s₁⟩ := r
        rw [hb] at h
        simp only [Option.some.injEq, Prod.mk.injEq] at h
        obtain ⟨rfl, hd', rfl⟩ := h
        have hbE := syncBody_establishes
          (fun cid' d'' stats'' t'' d''' s''' hg'' ht'' h'' =>
            sync_folder_establishes fuel cid' d'' stats'' t'' d''' s''' hg'' ht'' h'')
          hg hb
        refine ⟨rfl, ⟨freshMtime, c₁, ?_, hbE.1⟩, ?_, ?_, hbE.2⟩
        · rw [← hd', assocFind_childInsert_self]
        · intro k hk
          rw [← hd', assocFind_childInsert_ne hk]
        · intro e he
          cases he
    | some e₀ =>
      cases e₀ with
      | file m sz =>
        rw [hfind] at h
        cases h
      | dir m cc₀ =>
        rw [hfind] at h
        simp only at h
        cases hb : syncBody archive tree (sync_folder archive tree fuel) cid
            cc₀ stats with
        | none => rw [hb] at h; cases h
        | some r =>
          obtain ⟨c₁, s₁⟩ := r
          rw [hb] at h
          simp only [Option.some.injEq, Prod.mk.injEq] at h
          obtain ⟨rfl, hd', rfl⟩ := h
          have hbE := syncBody_establishes
            (fun cid' d'' stats'' t'' d''' s''' hg'' ht'' h'' =>
              sync_folder_establishes fuel cid' d'' stats'' t'' d''' s''' hg'' ht'' h'')
            hg hb
          refine ⟨rfl, ⟨m, c₁, ?_, hbE.1⟩, ?_, ?_, hbE.2⟩
          · rw [← hd', assocFind_childInsert_self]
          · intro k hk
            rw [← hd', assocFind_childInsert_ne hk]
          · intro e he
            injection he with he
            refine ⟨FSNode.dir m c₁, ?_, ?_⟩
            · rw [← hd', assocFind_childInsert_self]
            · rw [← he]
              rfl

/-- C1 amended: reconciliation is idempotent provided no two folders share a
local directory — every reachable child folder has a nonempty title, sibling
folder titles are pairwise distinct, and resolved file names do not interfere
(`good`).  Then, if one run completes successfully and neither the hierarchy
nor the local tree changes in between, the second run returns the identical
local tree, downloads zero files and deletes zero entries, and counts every
processed file as skipped; the first run accounted for each processed file as
either downloaded or skipped. -/
theorem reconciler_second_run_all_skipped {archive : Bool} {tree : Tree}
    {fuel : Nat} {root : String} {d₀ : Dir} {s₀ : Stats} {t : String}
    {d₁ : Dir} {s₁ : Stats}
    (hgood : good archive tree fuel root = true)
    (h₁ : sync_folder archive tree fuel root d₀ s₀ = some (t, d₁, s₁)) :
    (∃ s₂, sync_folder archive tree fuel root d₁ s₁ = some (t, d₁, s₂)
      ∧ s₂.synced_file_count = s₁.synced_file_count
      ∧ s₂.deleted_file_count = s₁.deleted_file_count
      ∧ s₂.deleted_file_size = s₁.deleted_file_size
      ∧ s₂.skipped_file_count = s₁.skipped_file_count + countFiles tree fuel root)
    ∧ s₁.synced_file_count + s₁.skipped_file_count =
        s₀.synced_file_count + s₀.skipped_file_count + countFiles tree fuel root := by
  by_cases htroot : (treeFind tree root).title = ""
  · cases fuel with
    | zero => cases h₁
    | succ f =>
      simp only [sync_folder, if_pos htroot] at h₁
      cases hb : syncBody archive tree (sync_folder archive tree f) root d₀ s₀ with
      | none => rw [hb] at h₁; cases h₁
      | some r =>
        obtain ⟨d₁', s₁'⟩ := r
        rw [hb] at h₁
        simp only [Option.some.injEq, Prod.mk.injEq] at h₁
        obtain ⟨ht_eq, rfl, rfl⟩ := h₁
        subst ht_eq
        have hbE := syncBody_establishes
          (fun cid' d'' stats'' t'' d''' s''' hg'' ht'' h'' =>
            sync_folder_establishes f cid' d'' stats'' t'' d''' s''' hg'' ht'' h'')
          hgood hb
        refine ⟨⟨addSkipped s₁' (countFiles tree (f + 1) root), ?_, rfl, rfl, rfl, rfl⟩,
          hbE.2⟩
        simp only [sync_folder, if_pos htroot,
          syncBody_idem
            (fun cid' d'' stats'' m' cc' hg' ht' hf' hp' =>
              sync_folder_idem f cid' d'' stats'' m' cc' hg' ht' hf' hp')
            hgood hbE.1]
  · have hE := sync_folder_establishes fuel root d₀ s₀ t d₁ s₁ hgood htroot h₁
    obtain ⟨ht_eq, ⟨m, cc, hfind, hpf⟩, _, _, hsum⟩ := hE
    subst ht_eq
    exact ⟨⟨addSkipped s₁ (countFiles tree fuel root),
      sync_folder_idem fuel root d₁ s₁ m cc hgood htroot hfind hpf,
      rfl, rfl, rfl, rfl⟩, hsum⟩

/-- The remote file of the witness scenario's root folder. -/
def objF : RemoteObj := ⟨"f", "f", "text/plain", some 2, ⟨7, 1⟩, []⟩

/-- A well-formed hierarchy: the root holds file `f` and one child folder `t`
holding file `g`. -/
def trW : Tree := [("r", ⟨"", ["c"], [objF]⟩), ("c", ⟨"t", [], [objG]⟩)]

/-- The local tree a first run over `trW` produces from an empty base. -/
def d1W : Dir := [("f", FSNode.file ⟨7, 1⟩ 2),
  ("t", FSNode.dir ⟨0, 0⟩ [("g", FSNode.file ⟨10, 0⟩ 1)])]

def s1W : Stats := {synced_file_count := 2}

/-- Witness for the amended C1: over the well-formed hierarchy `trW` the first
run downloads both files, and the theorem applied to it shows the second run
leaves the tree untouched and skips everything. -/
theorem reconciler_second_run_all_skipped_witness :
    good false trW 3 "r" = true
    ∧ ((∃ s₂, sync_folder false trW 3 "r" d1W s1W = some ("", d1W, s₂)
        ∧ s₂.synced_file_count = s1W.synced_file_count
        ∧ s₂.deleted_file_count = s1W.deleted_file_count
        ∧ s₂.deleted_file_size = s1W.deleted_file_size
        ∧ s₂.skipped_file_count = s1W.skipped_file_count + countFiles trW 3 "r")
      ∧ s1W.synced_file_count + s1W.skipped_file_count =
          ({} : Stats).synced_file_count + ({} : Stats).skipped_file_count +
            countFiles trW 3 "r") := by
  have h₁ : sync_folder false trW 3 "r" [] {} = some ("", d1W, s1W) := rfl
  exact ⟨rfl, reconciler_second_run_all_skipped rfl h₁⟩

/-- Witness for C6 at a concrete listing with a folder, a file and an orphan. -/
theorem tree_builder_counts_witness :
    ∃ s t r, get_tree [⟨"d1", "Docs", FOLDER_MIME, none, ⟨0, 0⟩, [⟨"root", true⟩]⟩,
        ⟨"f1", "a", "text/plain", some 5, ⟨3, 0⟩, [⟨"d1", false⟩]⟩,
        ⟨"f2", "b", "text/plain", some 7, ⟨0, 0⟩, []⟩] = some (s, t, r) ∧
      s.total_file_count = 1 ∧ s.total_folder_count = 1 ∧ s.total_file_size = 5 := by
  refine ⟨_, _, _, rfl, ?_⟩
  have := tree_builder_counts
    [⟨"d1", "Docs", FOLDER_MIME, none, ⟨0, 0⟩, [⟨"root", true⟩]⟩,
     ⟨"f1", "a", "text/plain", some 5, ⟨3, 0⟩, [⟨"d1", false⟩]⟩,
     ⟨"f2", "b", "text/plain", some 7, ⟨0, 0⟩, []⟩] _ _ _ rfl
  exact ⟨this.1.trans (by decide), this.2.1.trans (by decide), this.2.2.1.trans (by decide)⟩

end GDriveSync
